import Mathlib

/-
Verification of the dbt generic-test arguments migration tool
(`bin/migrate_test_arguments.py`).

The tool rewrites dbt YAML schema files, moving the non-reserved fields of
each generic-test declaration under a dedicated `arguments` key.  We embed
the parsed YAML documents as a tree type `Val` (mappings keep insertion
order, as Python dicts do), and translate each function of the script into
a Lean function over `Val`.  Python dynamic failures (`TypeError` raised by
`'.' in test_key` on a non-string, indexing errors, iterating a scalar) are
modelled with `Except String`; the per-file `try/except` boundary of
`migrate_file` catches them, exactly as in the source.
-/

namespace DbtMigrate

/-- A parsed YAML value: the generic tree-of-maps/sequences/scalars model
produced by `yaml.safe_load`.  Mappings are insertion-ordered key/value
lists (Python dicts); keys of real documents are scalars but the model
allows any `Val`, mirroring the dynamic typing of the source. -/
inductive Val where
  | str : String → Val
  | int : Int → Val
  | bool : Bool → Val
  | null : Val
  | list : List Val → Val
  | map : List (Val × Val) → Val

mutual
/-- Structural equality on `Val`, the embedding of Python `==` on parsed
YAML trees (all keys and values occurring in the claims are compared
within one scalar type, where Python `==` agrees with structural
equality). -/
def Val.beq : Val → Val → Bool
  | .str a, .str b => a == b
  | .int a, .int b => a == b
  | .bool a, .bool b => a == b
  | .null, .null => true
  | .list as, .list bs => Val.beqL as bs
  | .map as, .map bs => Val.beqM as bs
  | _, _ => false
def Val.beqL : List Val → List Val → Bool
  | [], [] => true
  | a :: as, b :: bs => Val.beq a b && Val.beqL as bs
  | _, _ => false
def Val.beqM : List (Val × Val) → List (Val × Val) → Bool
  | [], [] => true
  | (k, v) :: as, (k', v') :: bs => Val.beq k k' && Val.beq v v' && Val.beqM as bs
  | _, _ => false
end

mutual
theorem Val.eq_of_beq : ∀ (a b : Val), Val.beq a b = true → a = b
  | .str a, .str b, h => congrArg Val.str (by simpa [Val.beq] using h)
  | .int a, .int b, h => congrArg Val.int (by simpa [Val.beq] using h)
  | .bool a, .bool b, h => congrArg Val.bool (by simpa [Val.beq] using h)
  | .null, .null, _ => rfl
  | .list as, .list bs, h => congrArg Val.list (Val.eqL_of_beq as bs (by simpa [Val.beq] using h))
  | .map as, .map bs, h => congrArg Val.map (Val.eqM_of_beq as bs (by simpa [Val.beq] using h))
  | .str _, .int _, h => nomatch h
  | .str _, .bool _, h => nomatch h
  | .str _, .null, h => nomatch h
  | .str _, .list _, h => nomatch h
  | .str _, .map _, h => nomatch h
  | .int _, .str _, h => nomatch h
  | .int _, .bool _, h => nomatch h
  | .int _, .null, h => nomatch h
  | .int _, .list _, h => nomatch h
  | .int _, .map _, h => nomatch h
  | .bool _, .str _, h => nomatch h
  | .bool _, .int _, h => nomatch h
  | .bool _, .null, h => nomatch h
  | .bool _, .list _, h => nomatch h
  | .bool _, .map _, h => nomatch h
  | .null, .str _, h => nomatch h
  | .null, .int _, h => nomatch h
  | .null, .bool _, h => nomatch h
  | .null, .list _, h => nomatch h
  | .null, .map _, h => nomatch h
  | .list _, .str _, h => nomatch h
  | .list _, .int _, h => nomatch h
  | .list _, .bool _, h => nomatch h
  | .list _, .null, h => nomatch h
  | .list _, .map _, h => nomatch h
  | .map _, .str _, h => nomatch h
  | .map _, .int _, h => nomatch h
  | .map _, .bool _, h => nomatch h
  | .map _, .null, h => nomatch h
  | .map _, .list _, h => nomatch h
theorem Val.eqL_of_beq : ∀ (as bs : List Val), Val.beqL as bs = true → as = bs
  | [], [], _ => rfl
  | a :: as, b :: bs, h => by
      have h' := h
      simp only [Val.beqL, Bool.and_eq_true] at h'
      exact congrArg₂ List.cons (Val.eq_of_beq a b h'.1) (Val.eqL_of_beq as bs h'.2)
  | [], _ :: _, h => nomatch h
  | _ :: _, [], h => nomatch h
theorem Val.eqM_of_beq : ∀ (as bs : List (Val × Val)), Val.beqM as bs = true → as = bs
  | [], [], _ => rfl
  | (k, v) :: as, (k', v') :: bs, h => by
      have h' := h
      simp only [Val.beqM, Bool.and_eq_true] at h'
      have hk := Val.eq_of_beq k k' h'.1.1
      have hv := Val.eq_of_beq v v' h'.1.2
      have hrest := Val.eqM_of_beq as bs h'.2
      rw [hk, hv, hrest]
  | [], _ :: _, h => nomatch h
  | _ :: _, [], h => nomatch h
end

mutual
theorem Val.beq_refl : ∀ (a : Val), Val.beq a a = true
  | .str a => by simp [Val.beq]
  | .int a => by simp [Val.beq]
  | .bool a => by simp [Val.beq]
  | .null => rfl
  | .list as => Val.beqL_refl as
  | .map as => Val.beqM_refl as
theorem Val.beqL_refl : ∀ (as : List Val), Val.beqL as as = true
  | [] => rfl
  | a :: as => by
      simp only [Val.beqL, Bool.and_eq_true]
      exact ⟨Val.beq_refl a, Val.beqL_refl as⟩
theorem Val.beqM_refl : ∀ (as : List (Val × Val)), Val.beqM as as = true
  | [] => rfl
  | (k, v) :: as => by
      simp only [Val.beqM, Bool.and_eq_true]
      exact ⟨⟨Val.beq_refl k, Val.beq_refl v⟩, Val.beqM_refl as⟩
end

instance : DecidableEq Val := fun a b =>
  if h : Val.beq a b = true then isTrue (Val.eq_of_beq a b h)
  else isFalse (fun he => h (he ▸ Val.beq_refl a))

/-! ### Known generic-test name sets (module-level constants of the script) -/

/-- `BUILTIN_GENERIC_TESTS` from the source. -/
def BUILTIN_GENERIC_TESTS : List String :=
  ["unique", "not_null", "accepted_values", "relationships"]

/-- `DBT_UTILS_TESTS` from the source. -/
def DBT_UTILS_TESTS : List String :=
  ["dbt_utils.equal_rowcount", "dbt_utils.fewer_rows_than", "dbt_utils.greater_rows_than",
   "dbt_utils.expression_is_true", "dbt_utils.recency", "dbt_utils.at_least_one",
   "dbt_utils.not_accepted_values", "dbt_utils.relationships_where",
   "dbt_utils.mutually_exclusive_ranges", "dbt_utils.sequential_values",
   "dbt_utils.unique_combination_of_columns", "dbt_utils.cardinality_equality",
   "dbt_utils.equality", "dbt_utils.not_null_proportion", "dbt_utils.not_constant",
   "dbt_utils.accepted_range", "dbt_utils.not_empty_string"]

/-- `DBT_EXPECTATIONS_TESTS` from the source. -/
def DBT_EXPECTATIONS_TESTS : List String :=
  ["dbt_expectations.expect_column_values_to_be_unique",
   "dbt_expectations.expect_column_values_to_not_be_null",
   "dbt_expectations.expect_column_values_to_be_of_type",
   "dbt_expectations.expect_column_values_to_be_in_type_list",
   "dbt_expectations.expect_column_values_to_be_in_set",
   "dbt_expectations.expect_column_values_to_not_be_in_set",
   "dbt_expectations.expect_column_values_to_be_between",
   "dbt_expectations.expect_column_values_to_be_increasing",
   "dbt_expectations.expect_column_values_to_be_decreasing",
   "dbt_expectations.expect_column_value_lengths_to_be_between",
   "dbt_expectations.expect_column_value_lengths_to_equal",
   "dbt_expectations.expect_column_values_to_match_regex",
   "dbt_expectations.expect_column_values_to_not_match_regex",
   "dbt_expectations.expect_column_values_to_match_like_pattern",
   "dbt_expectations.expect_column_values_to_not_match_like_pattern",
   "dbt_expectations.expect_table_row_count_to_be_between",
   "dbt_expectations.expect_table_row_count_to_equal",
   "dbt_expectations.expect_table_column_count_to_be_between",
   "dbt_expectations.expect_table_column_count_to_equal",
   "dbt_expectations.expect_table_columns_to_match_ordered_list",
   "dbt_expectations.expect_table_columns_to_match_set",
   "dbt_expectations.expect_column_distinct_count_to_be_greater_than",
   "dbt_expectations.expect_column_distinct_count_to_equal",
   "dbt_expectations.expect_column_mean_to_be_between",
   "dbt_expectations.expect_column_median_to_be_between",
   "dbt_expectations.expect_column_quantile_values_to_be_between",
   "dbt_expectations.expect_column_stdev_to_be_between",
   "dbt_expectations.expect_column_sum_to_be_between",
   "dbt_expectations.expect_column_max_to_be_between",
   "dbt_expectations.expect_column_min_to_be_between"]

/-- `ALL_GENERIC_TESTS = BUILTIN | DBT_UTILS | DBT_EXPECTATIONS` (membership
in the set union is membership in the concatenation). -/
def ALL_GENERIC_TESTS : List String :=
  BUILTIN_GENERIC_TESTS ++ DBT_UTILS_TESTS ++ DBT_EXPECTATIONS_TESTS

/-- The `config_keys` set of `is_generic_test`. -/
def config_keys : List String :=
  ["config", "name", "description", "tags", "meta", "arguments"]

/-- The `reserved_keys` set of `needs_migration` and `migrate_test_dict`. -/
def reserved_keys : List String :=
  ["config", "name", "description", "tags", "meta", "test_name"]

/-! ### The classifier, migration predicate and restructurer -/

/-- `is_generic_test(test_key)`.  On a string the source checks membership
in `ALL_GENERIC_TESTS`, then `'.' in test_key` (single-character substring
containment, i.e. character membership), then `test_key not in config_keys`.
On every non-string value Python raises `TypeError`: for hashable scalars
(`int`, `bool`, `None`) the set-membership tests return `False` and
`'.' in test_key` raises; for unhashable values (`list`, `dict`) the
set-membership test itself raises. -/
def is_generic_test (test_key : Val) : Except String Bool :=
  match test_key with
  | .str s =>
      if s ∈ ALL_GENERIC_TESTS then .ok true
      else if '.' ∈ s.data then .ok true
      else .ok (decide (s ∉ config_keys))
  | _ => .error "TypeError"

/-- Keys of an embedded mapping, in insertion order. -/
def mapKeys (kvs : List (Val × Val)) : List Val := kvs.map Prod.fst

/-- Is a key a member of the `reserved_keys` set (Python `key in reserved_keys`;
a non-string key is never equal to any of the reserved strings). -/
def isReservedKey (k : Val) : Bool := decide (k ∈ reserved_keys.map Val.str)

/-- `needs_migration(test_dict)`: `False` for non-dicts; `False` when the
dict already has an `arguments` key; `True` iff some key lies outside the
reserved set. -/
def needs_migration (test_dict : Val) : Bool :=
  match test_dict with
  | .map kvs =>
      if (Val.str "arguments") ∈ mapKeys kvs then false
      else kvs.any (fun kv => !isReservedKey kv.1)
  | _ => false

/-- Python dict assignment `d[k] = v`: replaces the value in place when the
key is present, otherwise appends the pair at the end (insertion order). -/
def pyInsert (d : List (Val × Val)) (k v : Val) : List (Val × Val) :=
  if k ∈ mapKeys d then d.map (fun kv => if kv.1 = k then (k, v) else kv)
  else d ++ [(k, v)]

/-- The loop of `migrate_test_dict`: iterate the input pairs in order,
assigning reserved pairs into `new_dict` and the rest into `arguments`. -/
def migrate_loop (kvs : List (Val × Val)) : List (Val × Val) × List (Val × Val) :=
  kvs.foldl
    (fun acc kv =>
      if isReservedKey kv.1 then (pyInsert acc.1 kv.1 kv.2, acc.2)
      else (acc.1, pyInsert acc.2 kv.1 kv.2))
    ([], [])

/-- `migrate_test_dict(test_dict)`: returns the input unchanged unless
`needs_migration` holds; otherwise rebuilds the dict with the reserved
pairs first and, when any non-reserved pair was collected, a final
`arguments` entry holding them. -/
def migrate_test_dict (test_dict : Val) : Val :=
  if !needs_migration test_dict then test_dict
  else
    match test_dict with
    | .map kvs =>
        let nd := (migrate_loop kvs).1
        let args := (migrate_loop kvs).2
        if args.isEmpty then .map nd
        else .map (pyInsert nd (Val.str "arguments") (.map args))
    | t => t

/-- Python dict subscript lookup by key (first — and in a real dict only —
match); used for `test['test_name']`. -/
def lookupVal (kvs : List (Val × Val)) (k : Val) : Option Val :=
  match kvs with
  | [] => none
  | (k', v) :: rest => if k' = k then some v else lookupVal rest k

/-- Is the value a Python dict (`isinstance(x, dict)`). -/
def isDict (v : Val) : Bool :=
  match v with
  | .map _ => true
  | _ => false

/-- The body of the `for test in tests_list` loop of `process_test_list`:
one entry is either kept or replaced, yielding the new entry and the list
of recorded migrated test names (classifier failures propagate). -/
def process_step (test : Val) : Except String (Val × List Val) :=
  match test with
  | .map kvs =>
      match kvs with
      | [(test_name, test_config)] =>
          match is_generic_test test_name with
          | .error e => .error e
          | .ok g =>
              if g && isDict test_config then
                if needs_migration test_config then
                  .ok (.map [(test_name, migrate_test_dict test_config)], [test_name])
                else .ok (.map kvs, [])
              else .ok (.map kvs, [])
      | _ =>
          match lookupVal kvs (Val.str "test_name") with
          | some tn =>
              match is_generic_test tn with
              | .error e => .error e
              | .ok g =>
                  if g then
                    if needs_migration (.map kvs) then
                      .ok (migrate_test_dict (.map kvs), [tn])
                    else .ok (.map kvs, [])
                  else .ok (.map kvs, [])
          | none => .ok (.map kvs, [])
  | t => .ok (t, [])

/-- `process_test_list(tests_list)`: process the entries in order,
collecting the new list and the recorded migrated test names. -/
def process_test_list : List Val → Except String (List Val × List Val)
  | [] => .ok ([], [])
  | t :: rest =>
      match process_step t with
      | .error e => .error e
      | .ok (t', ns) =>
          match process_test_list rest with
          | .error e => .error e
          | .ok (out, names) => .ok (t' :: out, ns ++ names)

/-! ### The document walker (`process_yaml_content`) -/

/-- Check whether one character list occurs as a contiguous run at the
start of another. -/
def chunkAtStart : List Char → List Char → Bool
  | [], _ => true
  | _ :: _, [] => false
  | a :: as, b :: bs => a == b && chunkAtStart as bs

/-- Check whether one character list occurs contiguously anywhere inside
another (Python substring containment `needle in hay` for strings). -/
def chunkInside (needle : List Char) : List Char → Bool
  | [] => needle.isEmpty
  | c :: rest => chunkAtStart needle (c :: rest) || chunkInside needle rest

/-- Python `needle in container` for a string `needle`: key membership for
dicts, element membership for lists, substring containment for strings,
`TypeError` for non-iterable scalars. -/
def pyContains (container : Val) (needle : String) : Except String Bool :=
  match container with
  | .map kvs => .ok (decide ((Val.str needle) ∈ mapKeys kvs))
  | .list l => .ok (decide ((Val.str needle) ∈ l))
  | .str s => .ok (chunkInside needle.data s.data)
  | _ => .error "TypeError"

/-- Python `container[key]` for a string `key`: dict lookup (`KeyError`
when absent); every other container raises `TypeError` on a string
subscript. -/
def pyIndex (container : Val) (key : String) : Except String Val :=
  match container with
  | .map kvs =>
      match lookupVal kvs (Val.str key) with
      | some v => .ok v
      | none => .error "KeyError"
  | _ => .error "TypeError"

/-- Python `container[key] = v` on a dict; only reached after a successful
`pyIndex` on the same key, so the non-dict branch is inert. -/
def mapSet (container : Val) (key : String) (v : Val) : Val :=
  match container with
  | .map kvs => .map (pyInsert kvs (Val.str key) v)
  | c => c

/-- Run an entry processor over a list of values in order, rebuilding the
list (in-place mutation of the iterated elements) and concatenating the
recorded names. -/
def processEach (f : Val → Except String (Val × List Val)) :
    List Val → Except String (List Val × List Val)
  | [] => .ok ([], [])
  | x :: rest =>
      match f x with
      | .error e => .error e
      | .ok (x', ns) =>
          match processEach f rest with
          | .error e => .error e
          | .ok (rest', names) => .ok (x' :: rest', ns ++ names)

/-- Python `for x in container: ...` with in-place mutation of `x`:
lists iterate and rebuild their elements; dicts iterate their keys;
strings iterate their (immutable) characters, so the container itself is
unchanged; scalars raise `TypeError`. -/
def iterUpdate (container : Val) (f : Val → Except String (Val × List Val)) :
    Except String (Val × List Val) :=
  match container with
  | .list l =>
      match processEach f l with
      | .error e => .error e
      | .ok (l', ns) => .ok (.list l', ns)
  | .map kvs =>
      match processEach f (mapKeys kvs) with
      | .error e => .error e
      | .ok (ks, ns) => .ok (.map (ks.zip (kvs.map Prod.snd)), ns)
  | .str s =>
      match processEach f (s.data.map (fun c => Val.str (String.singleton c))) with
      | .error e => .error e
      | .ok (_, ns) => .ok (.str s, ns)
  | _ => .error "TypeError"

/-- The inner `if test_key in d and isinstance(d[test_key], list)` step of
the walker: migrate one check-list field of a declaration-carrying
mapping. -/
def applyTestKey (tk : String) (d : Val) : Except String (Val × List Val) :=
  match pyContains d tk with
  | .error e => .error e
  | .ok false => .ok (d, [])
  | .ok true =>
      match pyIndex d tk with
      | .error e => .error e
      | .ok v =>
          match v with
          | .list tests =>
              match process_test_list tests with
              | .error e => .error e
              | .ok (migrated, names) => .ok (mapSet d tk (.list migrated), names)
          | _ => .ok (d, [])

/-- `if 'tests' in d or 'data_tests' in d: for test_key in ['tests',
'data_tests']: ...` — the check-list block run on a resource, column or
table (`or` short-circuits, so the second containment test only runs when
the first was false). -/
def testsBlock (d : Val) : Except String (Val × List Val) :=
  match pyContains d "tests" with
  | .error e => .error e
  | .ok t1 =>
      match (if t1 then Except.ok true else pyContains d "data_tests") with
      | .error e => .error e
      | .ok guard =>
          if guard then
            match applyTestKey "tests" d with
            | .error e => .error e
            | .ok (d1, n1) =>
                match applyTestKey "data_tests" d1 with
                | .error e => .error e
                | .ok (d2, n2) => .ok (d2, n1 ++ n2)
          else .ok (d, [])

/-- `if 'columns' in d and isinstance(d['columns'], list): for column in
d['columns']: ...` — run the check-list block on every column. -/
def columnsBlock (d : Val) : Except String (Val × List Val) :=
  match pyContains d "columns" with
  | .error e => .error e
  | .ok false => .ok (d, [])
  | .ok true =>
      match pyIndex d "columns" with
      | .error e => .error e
      | .ok v =>
          match v with
          | .list cols =>
              match processEach testsBlock cols with
              | .error e => .error e
              | .ok (cols', names) => .ok (mapSet d "columns" (.list cols'), names)
          | _ => .ok (d, [])

/-- One table of a source: its check-list block, then its columns. -/
def processTable (t : Val) : Except String (Val × List Val) :=
  match testsBlock t with
  | .error e => .error e
  | .ok (t1, n1) =>
      match columnsBlock t1 with
      | .error e => .error e
      | .ok (t2, n2) => .ok (t2, n1 ++ n2)

/-- `if 'tables' in resource: for table in resource['tables']: ...`
(sources only; note the source has no `isinstance` guard here, so a
non-iterable `tables` value raises at the `for`). -/
def tablesBlock (d : Val) : Except String (Val × List Val) :=
  match pyContains d "tables" with
  | .error e => .error e
  | .ok false => .ok (d, [])
  | .ok true =>
      match pyIndex d "tables" with
      | .error e => .error e
      | .ok v =>
          match iterUpdate v processTable with
          | .error e => .error e
          | .ok (v', names) => .ok (mapSet d "tables" v', names)

/-- One resource entry: resource-level check lists, column-level check
lists, and (for sources) the tables block. -/
def processResource (isSources : Bool) (r : Val) : Except String (Val × List Val) :=
  match testsBlock r with
  | .error e => .error e
  | .ok (r1, n1) =>
      match columnsBlock r1 with
      | .error e => .error e
      | .ok (r2, n2) =>
          if isSources then
            match tablesBlock r2 with
            | .error e => .error e
            | .ok (r3, n3) => .ok (r3, n1 ++ n2 ++ n3)
          else .ok (r2, n1 ++ n2)

/-- `if resource_type in content: for resource in content[resource_type]`
for one resource-collection key. -/
def processResourceType (rt : String) (content : Val) :
    Except String (Val × List Val) :=
  match pyContains content rt with
  | .error e => .error e
  | .ok false => .ok (content, [])
  | .ok true =>
      match pyIndex content rt with
      | .error e => .error e
      | .ok v =>
          match iterUpdate v (processResource (rt == "sources")) with
          | .error e => .error e
          | .ok (v', ns) => .ok (mapSet content rt v', ns)

/-- Fold the per-resource-type walker over the four collection keys in
source order, accumulating the migrated names. -/
def processAllTypes : List String → Val → Except String (Val × List Val)
  | [], c => .ok (c, [])
  | rt :: rest, c =>
      match processResourceType rt c with
      | .error e => .error e
      | .ok (c', ns) =>
          match processAllTypes rest c' with
          | .error e => .error e
          | .ok (c'', ns') => .ok (c'', ns ++ ns')

/-- The four resource-collection keys iterated by `process_yaml_content`. -/
def resource_types : List String := ["models", "sources", "seeds", "snapshots"]

/-- `process_yaml_content(content, file_path)`: the whole document walker;
returns the mutated tree together with `all_migrated_tests`. -/
def process_yaml_content (content : Val) : Except String (Val × List Val) :=
  processAllTypes resource_types content

/-! ### The file-level driver and the run driver -/

/-- The outcome of reading and parsing one YAML file, holding the parts of
`migrate_file` performed by external collaborators: `readError` is an
exception while opening or reading the file (caught by the outer
`except Exception`), `parseError` a `yaml.YAMLError` from `safe_load`,
and `parsed v` a successfully loaded document (`None` loads as
`Val.null`). -/
inductive FileInput where
  | readError : FileInput
  | parseError : FileInput
  | parsed : Val → FileInput

/-- Python truthiness of a parsed YAML value (`if not yaml_content`). -/
def truthy (v : Val) : Bool :=
  match v with
  | .null => false
  | .bool b => b
  | .int n => decide (n ≠ 0)
  | .str s => !s.isEmpty
  | .list l => !l.isEmpty
  | .map kvs => !kvs.isEmpty

/-- The externally observable effect of one `migrate_file` call: whether
the source file was overwritten on disk, the migration-report entry
appended to `migrations_performed` (the recorded migrated names), and the
boolean return value. -/
structure FileEffect where
  wrote : Bool
  report : Option (List Val)
  result : Bool

/-- `migrate_file(file_path)` with the I/O boundary made explicit: a parse
warning or any exception (read failure or a `TypeError` escaping
`process_yaml_content`) is caught at the per-file boundary and yields
`False` with no write and no report; an empty or migration-free document
yields `False`; otherwise the migration report is recorded and the file is
written back unless `dry_run` is set. -/
def migrate_file (dry_run : Bool) (input : FileInput) : FileEffect :=
  match input with
  | .readError => ⟨false, none, false⟩
  | .parseError => ⟨false, none, false⟩
  | .parsed v =>
      if !truthy v then ⟨false, none, false⟩
      else
        match process_yaml_content v with
        | .error _ => ⟨false, none, false⟩
        | .ok (_, names) =>
            if names.isEmpty then ⟨false, none, false⟩
            else ⟨!dry_run, some names, true⟩

/-- `run_migration`: process every discovered file in order, counting the
migrated files and accumulating the report entries. -/
def run_migration (dry_run : Bool) (files : List FileInput) :
    Nat × List (List Val) :=
  files.foldl
    (fun acc f =>
      let e := migrate_file dry_run f
      ((if e.result then acc.1 + 1 else acc.1),
       acc.2 ++ (match e.report with | some ns => [ns] | none => [])))
    (0, [])

/-- `main()`: exit with status 1 when the models directory does not exist
(before touching any file); otherwise run the migration over the
discovered files and exit 0. -/
def main_exit (models_dir_exists : Bool) (dry_run : Bool)
    (files : List FileInput) : Nat :=
  if !models_dir_exists then 1
  else
    let _ := run_migration dry_run files
    0

/-- One output entry is either the input entry itself or its restructured
replacement (a rebuilt single-key mapping, or the restructured whole
mapping). -/
def isRestructured (t t' : Val) : Prop :=
  (∃ k cfg, t = .map [(k, cfg)] ∧ t' = .map [(k, migrate_test_dict cfg)]) ∨
  t' = migrate_test_dict t

/-- A check-list entry as loaded from YAML: if it is a mapping its
top-level keys are distinct, as the keys of any Python dict are. -/
def entryOK (t : Val) : Bool :=
  match t with
  | .map kvs => decide ((mapKeys kvs).Nodup)
  | _ => true

/-- Scalar values — the only values Python accepts as dict keys among the
shapes `yaml.safe_load` produces (lists and dicts are unhashable). -/
def scalarKey (v : Val) : Bool :=
  match v with
  | .str _ => true
  | .int _ => true
  | .bool _ => true
  | .null => true
  | _ => false

mutual
/-- A well-formed loaded document: every mapping anywhere in the tree has
distinct keys and only scalar keys — exactly what `yaml.safe_load`
produces, since Python dict keys are unique and must be hashable. -/
def valOK : Val → Bool
  | .map kvs =>
      decide ((mapKeys kvs).Nodup) && kvs.all (fun kv => scalarKey kv.1) &&
        pairsOK kvs
  | .list l => listOK l
  | _ => true
def listOK : List Val → Bool
  | [] => true
  | v :: rest => valOK v && listOK rest
def pairsOK : List (Val × Val) → Bool
  | [] => true
  | (k, v) :: rest => valOK k && valOK v && pairsOK rest
end

/-- Frame relation between two values: Python `in` tests agree everywhere,
and subscripting agrees outside the touched keys.  A walker step that
mutates only the values under `T` keeps everything else. -/
def keepsOutside (T : List String) (d d' : Val) : Prop :=
  (∀ s, pyContains d' s = pyContains d s) ∧
  (∀ k, k ∉ T → pyIndex d' k = pyIndex d k)

/-! ### Facts about the fixed name sets -/

lemma all_generic_not_config : ∀ s ∈ ALL_GENERIC_TESTS, s ∉ config_keys := by decide

lemma config_keys_no_dot : ∀ s ∈ config_keys, '.' ∉ s.data := by decide

/-! ### C2: the classifier -/

/-- C2: for every string name, `is_generic_test` returns true when the
name is in the built-in or extension-package sets, returns true for any
name containing a `.`, and returns false exactly when the name is one of
the six structural keys `config, name, description, tags, meta,
arguments`. -/
theorem is_generic_test_classification (s : String) :
    (s ∈ ALL_GENERIC_TESTS → is_generic_test (.str s) = .ok true) ∧
    ('.' ∈ s.data → is_generic_test (.str s) = .ok true) ∧
    (is_generic_test (.str s) = .ok false ↔ s ∈ config_keys) := by
  refine ⟨?_, ?_, ?_⟩
  · intro h
    simp [is_generic_test, h]
  · intro h
    by_cases hm : s ∈ ALL_GENERIC_TESTS
    · simp [is_generic_test, hm]
    · simp [is_generic_test, hm, h]
  · by_cases hm : s ∈ ALL_GENERIC_TESTS
    · simp only [is_generic_test, if_pos hm]
      constructor
      · intro h
        exact absurd h (by simp)
      · intro hc
        exact absurd hc (all_generic_not_config s hm)
    · by_cases hd : '.' ∈ s.data
      · simp only [is_generic_test, if_neg hm, if_pos hd]
        constructor
        · intro h
          exact absurd h (by simp)
        · intro hc
          exact absurd hd (config_keys_no_dot s hc)
      · simp only [is_generic_test, if_neg hm, if_neg hd, Except.ok.injEq]
        constructor
        · intro h
          by_contra hc
          simp [hc] at h
        · intro hc
          simp [hc]

/-- C2 witness: the three parts at concrete names. -/
theorem is_generic_test_classification_witness :
    is_generic_test (.str "dbt_utils.equality") = .ok true ∧
    is_generic_test (.str "my.custom_check") = .ok true ∧
    is_generic_test (.str "meta") = .ok false :=
  ⟨(is_generic_test_classification "dbt_utils.equality").1 (by decide),
   (is_generic_test_classification "my.custom_check").2.1 (by decide),
   (is_generic_test_classification "meta").2.2.mpr (by decide)⟩

/-! ### C3: the migration-needed predicate -/

/-- C3: `needs_migration` returns true exactly on mappings that lack an
`arguments` key and contain some key outside the reserved set; in
particular it is false on every non-mapping, on any mapping with an
`arguments` key, and on mappings all of whose keys are reserved. -/
theorem needs_migration_spec (v : Val) :
    needs_migration v = true ↔
      ∃ kvs, v = .map kvs ∧ (Val.str "arguments") ∉ mapKeys kvs ∧
        ∃ p ∈ kvs, p.1 ∉ reserved_keys.map Val.str := by
  cases v with
  | map kvs =>
      by_cases h : (Val.str "arguments") ∈ mapKeys kvs
      · simp [needs_migration, h]
      · simp [needs_migration, h, isReservedKey, List.any_eq_true]
  | str s => simp [needs_migration]
  | int n => simp [needs_migration]
  | bool b => simp [needs_migration]
  | null => simp [needs_migration]
  | list l => simp [needs_migration]

/-! ### Dict-rebuild lemmas for `migrate_test_dict` -/

lemma pyInsert_of_not_mem (d : List (Val × Val)) (k v : Val)
    (h : k ∉ mapKeys d) : pyInsert d k v = d ++ [(k, v)] := by
  simp [pyInsert, h]

lemma mem_keys_filter {kvs : List (Val × Val)} {p : Val × Val → Bool} {k : Val}
    (h : k ∈ mapKeys (kvs.filter p)) : ∃ kv ∈ kvs, p kv = true ∧ kv.1 = k := by
  simp only [mapKeys, List.mem_map, List.mem_filter] at h
  obtain ⟨kv, ⟨hmem, hp⟩, hk⟩ := h
  exact ⟨kv, hmem, hp, hk⟩

/-- The loop of `migrate_test_dict`, run from any pair of accumulators
whose keys are disjoint from the remaining input keys, appends exactly the
reserved-filtered and non-reserved-filtered pairs (input keys distinct, as
in a Python dict). -/
lemma migrate_loop_go (kvs : List (Val × Val)) :
    ∀ nd args : List (Val × Val), (mapKeys kvs).Nodup →
    (∀ k ∈ mapKeys kvs, k ∉ mapKeys nd) →
    (∀ k ∈ mapKeys kvs, k ∉ mapKeys args) →
    kvs.foldl
      (fun acc kv =>
        if isReservedKey kv.1 then (pyInsert acc.1 kv.1 kv.2, acc.2)
        else (acc.1, pyInsert acc.2 kv.1 kv.2))
      (nd, args) =
      (nd ++ kvs.filter (fun kv => isReservedKey kv.1),
       args ++ kvs.filter (fun kv => !isReservedKey kv.1)) := by
  induction kvs with
  | nil => intro nd args _ _ _; simp
  | cons kv rest ih =>
      intro nd args hnodup hnd hargs
      obtain ⟨k, v⟩ := kv
      simp only [mapKeys, List.map_cons, List.nodup_cons] at hnodup
      have hknd : k ∉ mapKeys nd := hnd k (by simp [mapKeys])
      have hkargs : k ∉ mapKeys args := hargs k (by simp [mapKeys])
      by_cases hres : isReservedKey k = true
      · have hstep :
            (if isReservedKey k = true then (pyInsert nd k v, args)
             else (nd, pyInsert args k v)) = (nd ++ [(k, v)], args) := by
          rw [if_pos hres, pyInsert_of_not_mem nd k v hknd]
        rw [List.foldl_cons]
        simp only []
        rw [hstep]
        rw [ih (nd ++ [(k, v)]) args hnodup.2 ?_ ?_]
        · simp [List.filter_cons, hres, List.append_assoc]
        · intro k' hk'
          have hk'rest : k' ∈ List.map Prod.fst rest := by
            simpa [mapKeys] using hk'
          have hne : k' ≠ k := by
            intro he
            exact hnodup.1 (he ▸ hk'rest)
          simp only [mapKeys, List.map_append, List.mem_append]
          push_neg
          refine ⟨hnd k' ?_, ?_⟩
          · simp [mapKeys, hk'rest]
          · simp [hne]
        · intro k' hk'
          exact hargs k' (by simp [mapKeys] at hk' ⊢; exact Or.inr hk')
      · have hstep :
            (if isReservedKey k = true then (pyInsert nd k v, args)
             else (nd, pyInsert args k v)) = (nd, args ++ [(k, v)]) := by
          rw [if_neg hres, pyInsert_of_not_mem args k v hkargs]
        rw [List.foldl_cons]
        simp only []
        rw [hstep]
        rw [ih nd (args ++ [(k, v)]) hnodup.2 ?_ ?_]
        · simp [List.filter_cons, hres, List.append_assoc]
        · intro k' hk'
          exact hnd k' (by simp [mapKeys] at hk' ⊢; exact Or.inr hk')
        · intro k' hk'
          have hk'rest : k' ∈ List.map Prod.fst rest := by
            simpa [mapKeys] using hk'
          have hne : k' ≠ k := by
            intro he
            exact hnodup.1 (he ▸ hk'rest)
          simp only [mapKeys, List.map_append, List.mem_append]
          push_neg
          refine ⟨hargs k' ?_, ?_⟩
          · simp [mapKeys, hk'rest]
          · simp [hne]

/-- With distinct keys, the loop partitions the input pairs into the
reserved ones and the future `arguments` ones, in encounter order. -/
lemma migrate_loop_eq (kvs : List (Val × Val)) (h : (mapKeys kvs).Nodup) :
    migrate_loop kvs =
      (kvs.filter (fun kv => isReservedKey kv.1),
       kvs.filter (fun kv => !isReservedKey kv.1)) := by
  have := migrate_loop_go kvs [] [] h (by simp [mapKeys]) (by simp [mapKeys])
  simpa [migrate_loop] using this

/-! ### C1: the restructurer -/

/-- C1: on a declaration mapping (distinct keys, as any Python dict has)
that needs migration, `migrate_test_dict` returns the mapping made of the
reserved pairs in encounter order followed by a single final `arguments`
entry holding exactly the non-reserved pairs in encounter order; nothing
is dropped or duplicated, and being a pure function it leaves the input
value untouched. -/
theorem migrate_test_dict_spec (kvs : List (Val × Val))
    (hmig : needs_migration (.map kvs) = true)
    (hnodup : (mapKeys kvs).Nodup) :
    migrate_test_dict (.map kvs) =
      .map (kvs.filter (fun kv => isReservedKey kv.1) ++
            [(Val.str "arguments", .map (kvs.filter (fun kv => !isReservedKey kv.1)))]) := by
  have hloop := migrate_loop_eq kvs hnodup
  have hargs_ne : kvs.filter (fun kv => !isReservedKey kv.1) ≠ [] := by
    simp only [needs_migration] at hmig
    rcases Classical.em ((Val.str "arguments") ∈ mapKeys kvs) with h | h
    · rw [if_pos h] at hmig
      exact absurd hmig (by simp)
    · rw [if_neg h] at hmig
      obtain ⟨p, hp, hnp⟩ := List.any_eq_true.mp hmig
      intro hnil
      have : p ∈ kvs.filter (fun kv => !isReservedKey kv.1) :=
        List.mem_filter.mpr ⟨hp, hnp⟩
      rw [hnil] at this
      exact absurd this (List.not_mem_nil p)
  have hargs_mem : (Val.str "arguments") ∉
      mapKeys (kvs.filter (fun kv => isReservedKey kv.1)) := by
    intro hmem
    obtain ⟨kv, _, hres, hk⟩ := mem_keys_filter hmem
    rw [hk] at hres
    exact absurd hres (by decide)
  simp only [migrate_test_dict, hmig, Bool.not_true, Bool.false_eq_true,
    if_false, hloop, List.isEmpty_eq_true, hargs_ne]
  rw [pyInsert_of_not_mem _ _ _ hargs_mem]

/-- C1 witness: Scenario A, `accepted_values` with `values` and `config`. -/
theorem migrate_test_dict_spec_witness :
    migrate_test_dict
        (.map [(Val.str "values", Val.list [.str "a", .str "b"]),
               (Val.str "config", Val.map [(.str "where", .str "x")])]) =
      .map [(Val.str "config", Val.map [(.str "where", .str "x")]),
            (Val.str "arguments",
             .map [(Val.str "values", Val.list [.str "a", .str "b"])])] := by
  have h := migrate_test_dict_spec
    [(Val.str "values", Val.list [.str "a", .str "b"]),
     (Val.str "config", Val.map [(.str "where", .str "x")])]
    (by rfl) (by decide)
  simpa using h

/-! ### C5: multi-key entries with a `test_name` field -/

/-- C5: a check-list entry that is a mapping with more than one key and a
`test_name` key whose value classifies with result `b` is replaced by the
restructured whole mapping with the `test_name` value recorded when `b`
holds and the whole mapping needs migration, and is passed through
unchanged (recording nothing) otherwise; the rest of the list is processed
independently. -/
theorem process_test_list_multikey (kvs : List (Val × Val)) (rest : List Val)
    (name : Val) (b : Bool)
    (hlen : 1 < kvs.length)
    (hfind : lookupVal kvs (Val.str "test_name") = some name)
    (hg : is_generic_test name = .ok b) :
    process_test_list (.map kvs :: rest) =
      Except.map
        (fun r =>
          if b && needs_migration (.map kvs) then
            (migrate_test_dict (.map kvs) :: r.1, name :: r.2)
          else (.map kvs :: r.1, r.2))
        (process_test_list rest) := by
  cases kvs with
  | nil => simp at hlen
  | cons a t =>
  cases t with
  | nil => simp at hlen
  | cons c t' =>
  have hstep : process_step (.map (a :: c :: t')) =
      (if b && needs_migration (.map (a :: c :: t')) then
         Except.ok (migrate_test_dict (.map (a :: c :: t')), [name])
       else Except.ok (.map (a :: c :: t'), ([] : List Val))) := by
    simp only [process_step]
    rw [hfind]
    simp only [hg]
    cases hb : b with
    | false => simp
    | true =>
        by_cases hn : needs_migration (.map (a :: c :: t')) = true
        · simp [hn]
        · simp [hn]
  simp only [process_test_list]
  rw [hstep]
  by_cases hb : (b && needs_migration (.map (a :: c :: t'))) = true
  · rw [if_pos hb]
    cases hr : process_test_list rest with
    | error e => simp [Except.map]
    | ok q => simp [Except.map, hb]
  · rw [if_neg hb]
    cases hr : process_test_list rest with
    | error e => simp [Except.map]
    | ok q => simp [Except.map, hb]

/-- C5 witness: Scenario C, `test_name: dbt_utils.equality` next to a
`compare_model` field. -/
theorem process_test_list_multikey_witness :
    process_test_list
        [.map [(Val.str "test_name", Val.str "dbt_utils.equality"),
               (Val.str "compare_model", Val.str "ref(other)")]] =
      Except.map
        (fun r =>
          if true && needs_migration
              (.map [(Val.str "test_name", Val.str "dbt_utils.equality"),
                     (Val.str "compare_model", Val.str "ref(other)")]) then
            (migrate_test_dict
               (.map [(Val.str "test_name", Val.str "dbt_utils.equality"),
                      (Val.str "compare_model", Val.str "ref(other)")]) :: r.1,
             Val.str "dbt_utils.equality" :: r.2)
          else
            (.map [(Val.str "test_name", Val.str "dbt_utils.equality"),
                   (Val.str "compare_model", Val.str "ref(other)")] :: r.1, r.2))
        (process_test_list []) :=
  process_test_list_multikey
    [(Val.str "test_name", Val.str "dbt_utils.equality"),
     (Val.str "compare_model", Val.str "ref(other)")]
    [] (Val.str "dbt_utils.equality") true
    (by decide) (by rfl) (by rfl)

/-! ### C6: order and length preservation -/

lemma process_step_shape (t t' : Val) (ns : List Val)
    (h : process_step t = .ok (t', ns)) : t' = t ∨ isRestructured t t' := by
  cases t with
  | map kvs =>
      simp only [process_step] at h
      repeat' (split at h)
      all_goals
        first
          | exact Except.noConfusion h
          | (simp only [Except.ok.injEq, Prod.mk.injEq] at h
             first
               | (left; exact h.1.symm)
               | (right; left; exact ⟨_, _, rfl, h.1.symm⟩)
               | (right; right; exact h.1.symm))
  | str s =>
      simp only [process_step, Except.ok.injEq, Prod.mk.injEq] at h
      left; exact h.1.symm
  | int n =>
      simp only [process_step, Except.ok.injEq, Prod.mk.injEq] at h
      left; exact h.1.symm
  | bool b =>
      simp only [process_step, Except.ok.injEq, Prod.mk.injEq] at h
      left; exact h.1.symm
  | null =>
      simp only [process_step, Except.ok.injEq, Prod.mk.injEq] at h
      left; exact h.1.symm
  | list l =>
      simp only [process_step, Except.ok.injEq, Prod.mk.injEq] at h
      left; exact h.1.symm

/-- C6: the output check list has the same length as the input and, at
every index, holds either the very input entry or its restructured
replacement: no entry is added, removed or reordered. -/
theorem process_test_list_order :
    ∀ (tests out names : List Val),
      process_test_list tests = .ok (out, names) →
      out.length = tests.length ∧
      ∀ i (h1 : i < tests.length) (h2 : i < out.length),
        out.get ⟨i, h2⟩ = tests.get ⟨i, h1⟩ ∨
        isRestructured (tests.get ⟨i, h1⟩) (out.get ⟨i, h2⟩) := by
  intro tests
  induction tests with
  | nil =>
      intro out names h
      simp only [process_test_list, Except.ok.injEq, Prod.mk.injEq] at h
      obtain ⟨h1, -⟩ := h
      subst h1
      exact ⟨rfl, fun i h1 h2 => absurd h1 (by simp)⟩
  | cons t rest ih =>
      intro out names h
      simp only [process_test_list] at h
      cases hs : process_step t with
      | error e => rw [hs] at h; exact absurd h (by simp)
      | ok p =>
          obtain ⟨t', ns⟩ := p
          rw [hs] at h
          cases hr : process_test_list rest with
          | error e => rw [hr] at h; exact absurd h (by simp)
          | ok q =>
              obtain ⟨out', names'⟩ := q
              rw [hr] at h
              simp only [Except.ok.injEq, Prod.mk.injEq] at h
              obtain ⟨hout, -⟩ := h
              subst hout
              obtain ⟨hlen, hidx⟩ := ih out' names' hr
              refine ⟨by simp [hlen], ?_⟩
              intro i h1 h2
              cases i with
              | zero => simpa using process_step_shape t t' ns hs
              | succ j =>
                  have h1' : j < rest.length := by simpa using h1
                  have h2' : j < out'.length := by simpa using h2
                  simpa using hidx j h1' h2'

/-- C6 witness: a concrete two-entry list (one migrated, one kept). -/
theorem process_test_list_order_witness :
    ([Val.map [(Val.str "accepted_values",
        Val.map [(Val.str "arguments",
                  Val.map [(Val.str "values", Val.list [Val.str "a"])])])],
      Val.str "not_null"] : List Val).length =
      ([Val.map [(Val.str "accepted_values",
          Val.map [(Val.str "values", Val.list [Val.str "a"])])],
        Val.str "not_null"] : List Val).length :=
  (process_test_list_order
    [Val.map [(Val.str "accepted_values",
        Val.map [(Val.str "values", Val.list [Val.str "a"])])],
     Val.str "not_null"]
    [Val.map [(Val.str "accepted_values",
        Val.map [(Val.str "arguments",
                  Val.map [(Val.str "values", Val.list [Val.str "a"])])])],
     Val.str "not_null"]
    [Val.str "accepted_values"]
    (by rfl)).1

/-! ### Idempotence machinery (C4) -/

lemma pyInsert_ne_nil (d : List (Val × Val)) (k v : Val) : pyInsert d k v ≠ [] := by
  unfold pyInsert
  split
  · rename_i hmem
    intro he
    rw [List.map_eq_nil_iff] at he
    subst he
    simp [mapKeys] at hmem
  · simp

lemma mem_keys_pyInsert (d : List (Val × Val)) (k v : Val) :
    k ∈ mapKeys (pyInsert d k v) := by
  unfold pyInsert
  split
  · rename_i hmem
    simp only [mapKeys, List.mem_map] at hmem
    obtain ⟨kv, hkv, hk⟩ := hmem
    have hfm : (k, v) ∈ d.map (fun kv => if kv.1 = k then (k, v) else kv) := by
      apply List.mem_map.mpr
      refine ⟨kv, hkv, ?_⟩
      simp [hk]
    exact List.mem_map.mpr ⟨(k, v), hfm, rfl⟩
  · simp [mapKeys]

lemma migrate_fold_args_ne (kvs : List (Val × Val)) :
    ∀ acc : List (Val × Val) × List (Val × Val),
      ((∃ p ∈ kvs, isReservedKey p.1 = false) ∨ acc.2 ≠ []) →
      (kvs.foldl
        (fun acc kv =>
          if isReservedKey kv.1 then (pyInsert acc.1 kv.1 kv.2, acc.2)
          else (acc.1, pyInsert acc.2 kv.1 kv.2))
        acc).2 ≠ [] := by
  induction kvs with
  | nil =>
      intro acc hacc
      rcases hacc with ⟨p, hp, -⟩ | hne
      · exact absurd hp (List.not_mem_nil p)
      · exact hne
  | cons kv rest ih =>
      intro acc hacc
      obtain ⟨k, v⟩ := kv
      rw [List.foldl_cons]
      by_cases hres : isReservedKey k = true
      · have hstep :
            (if isReservedKey (k, v).1 = true
             then (pyInsert acc.1 (k, v).1 (k, v).2, acc.2)
             else (acc.1, pyInsert acc.2 (k, v).1 (k, v).2)) =
            (pyInsert acc.1 k v, acc.2) := by
          simp only []
          rw [if_pos hres]
        rw [hstep]
        apply ih
        rcases hacc with ⟨p, hp, hpres⟩ | hne
        · rcases List.mem_cons.mp hp with heq | hp'
          · rw [heq] at hpres
            rw [show isReservedKey ((k, v) : Val × Val).1 = isReservedKey k from rfl,
              hpres] at hres
            exact Bool.noConfusion hres
          · exact Or.inl ⟨p, hp', hpres⟩
        · exact Or.inr hne
      · have hstep :
            (if isReservedKey (k, v).1 = true
             then (pyInsert acc.1 (k, v).1 (k, v).2, acc.2)
             else (acc.1, pyInsert acc.2 (k, v).1 (k, v).2)) =
            (acc.1, pyInsert acc.2 k v) := by
          simp only []
          rw [if_neg hres]
        rw [hstep]
        apply ih
        exact Or.inr (pyInsert_ne_nil acc.2 k v)

lemma migrate_loop_args_ne (kvs : List (Val × Val))
    (hx : ∃ p ∈ kvs, isReservedKey p.1 = false) : (migrate_loop kvs).2 ≠ [] :=
  migrate_fold_args_ne kvs ([], []) (Or.inl hx)

lemma needs_migration_args_exists {kvs : List (Val × Val)}
    (h : needs_migration (.map kvs) = true) :
    (Val.str "arguments") ∉ mapKeys kvs ∧ ∃ p ∈ kvs, isReservedKey p.1 = false := by
  simp only [needs_migration] at h
  rcases Classical.em ((Val.str "arguments") ∈ mapKeys kvs) with hm | hm
  · rw [if_pos hm] at h
    exact absurd h (by simp)
  · rw [if_neg hm] at h
    obtain ⟨p, hp, hnp⟩ := List.any_eq_true.mp h
    exact ⟨hm, p, hp, by simpa using hnp⟩

/-- A migrated mapping never needs migration again: the rebuilt dict always
carries an `arguments` key. -/
lemma needs_migration_migrate_false (m : Val) (h : needs_migration m = true) :
    needs_migration (migrate_test_dict m) = false := by
  cases m with
  | map kvs =>
      have hargs : (migrate_loop kvs).2 ≠ [] :=
        migrate_loop_args_ne kvs (needs_migration_args_exists h).2
      have hEmpty : (migrate_loop kvs).2.isEmpty = false := by
        cases he : (migrate_loop kvs).2 with
        | nil => exact absurd he hargs
        | cons a l => rfl
      simp only [migrate_test_dict, h, Bool.not_true, Bool.false_eq_true, if_false,
        hEmpty]
      have hmem := mem_keys_pyInsert (migrate_loop kvs).1 (Val.str "arguments")
        (.map (migrate_loop kvs).2)
      simp [needs_migration, hmem]
  | str s => simp [needs_migration] at h
  | int n => simp [needs_migration] at h
  | bool b => simp [needs_migration] at h
  | null => simp [needs_migration] at h
  | list l => simp [needs_migration] at h

lemma migrate_isDict (m : Val) (h : needs_migration m = true) :
    isDict (migrate_test_dict m) = true := by
  cases m with
  | map kvs =>
      simp only [migrate_test_dict, h, Bool.not_true, Bool.false_eq_true, if_false]
      split <;> rfl
  | str s => simp [needs_migration] at h
  | int n => simp [needs_migration] at h
  | bool b => simp [needs_migration] at h
  | null => simp [needs_migration] at h
  | list l => simp [needs_migration] at h

lemma lookupVal_mem {kvs : List (Val × Val)} {k v : Val}
    (h : lookupVal kvs k = some v) : (k, v) ∈ kvs := by
  induction kvs with
  | nil => exact Option.noConfusion h
  | cons p rest ih =>
      obtain ⟨k', v'⟩ := p
      rw [lookupVal] at h
      by_cases hk : k' = k
      · rw [if_pos hk] at h
        obtain rfl : v' = v := by simpa using h
        subst hk
        exact List.mem_cons_self _ _
      · rw [if_neg hk] at h
        exact List.mem_cons_of_mem _ (ih h)

lemma lookupVal_append_left {l l2 : List (Val × Val)} {k v : Val}
    (h : lookupVal l k = some v) : lookupVal (l ++ l2) k = some v := by
  induction l with
  | nil => exact Option.noConfusion h
  | cons p rest ih =>
      obtain ⟨k', v'⟩ := p
      rw [lookupVal] at h
      rw [List.cons_append, lookupVal]
      by_cases hk : k' = k
      · rw [if_pos hk] at h ⊢
        exact h
      · rw [if_neg hk] at h ⊢
        exact ih h

lemma isReservedKey_test_name : isReservedKey (Val.str "test_name") = true := by decide

lemma lookupVal_filter_res {kvs : List (Val × Val)} {K v : Val}
    (hres : isReservedKey K = true)
    (h : lookupVal kvs K = some v) :
    lookupVal (kvs.filter (fun kv => isReservedKey kv.1)) K = some v := by
  induction kvs with
  | nil => exact Option.noConfusion h
  | cons p rest ih =>
      obtain ⟨k', v'⟩ := p
      rw [lookupVal] at h
      by_cases hk : k' = K
      · rw [if_pos hk] at h
        rw [List.filter_cons, if_pos (by simpa [hk] using hres)]
        rw [lookupVal, if_pos hk]
        exact h
      · rw [if_neg hk] at h
        rw [List.filter_cons]
        by_cases hp : isReservedKey k' = true
        · rw [if_pos (by simpa using hp)]
          rw [lookupVal, if_neg hk]
          exact ih h
        · rw [if_neg (by simpa using hp)]
          exact ih h

/-! ### Reduction lemmas for `process_step` -/

lemma process_step_single (k cfg : Val) (g : Bool)
    (hg : is_generic_test k = .ok g) :
    process_step (.map [(k, cfg)]) =
      (if g && isDict cfg then
         if needs_migration cfg then
           Except.ok (.map [(k, migrate_test_dict cfg)], [k])
         else Except.ok (.map [(k, cfg)], ([] : List Val))
       else Except.ok (.map [(k, cfg)], ([] : List Val))) := by
  simp only [process_step, hg]

lemma process_step_found (kvs : List (Val × Val)) (tn : Val) (g : Bool)
    (hlen : kvs.length ≠ 1)
    (hf : lookupVal kvs (Val.str "test_name") = some tn)
    (hg : is_generic_test tn = .ok g) :
    process_step (.map kvs) =
      (if g then
         if needs_migration (.map kvs) then
           Except.ok (migrate_test_dict (.map kvs), [tn])
         else Except.ok (.map kvs, ([] : List Val))
       else Except.ok (.map kvs, ([] : List Val))) := by
  cases kvs with
  | nil => exact Option.noConfusion hf
  | cons p r0 =>
      cases r0 with
      | nil => simp at hlen
      | cons q r => simp only [process_step, hf, hg]

lemma process_step_found_err (kvs : List (Val × Val)) (tn : Val) (e : String)
    (hlen : kvs.length ≠ 1)
    (hf : lookupVal kvs (Val.str "test_name") = some tn)
    (hg : is_generic_test tn = .error e) :
    process_step (.map kvs) = .error e := by
  cases kvs with
  | nil => exact Option.noConfusion hf
  | cons p r0 =>
      cases r0 with
      | nil => simp at hlen
      | cons q r => simp only [process_step, hf, hg]

lemma process_step_nofound (kvs : List (Val × Val))
    (hlen : kvs.length ≠ 1)
    (hf : lookupVal kvs (Val.str "test_name") = none) :
    process_step (.map kvs) = .ok (.map kvs, []) := by
  cases kvs with
  | nil => simp only [process_step, lookupVal]
  | cons p r0 =>
      cases r0 with
      | nil => simp at hlen
      | cons q r => simp only [process_step, hf]

/-- Processing an already-processed entry is the identity and records
nothing. -/
lemma process_step_stable (t t' : Val) (ns : List Val)
    (hok : entryOK t = true)
    (h : process_step t = .ok (t', ns)) :
    process_step t' = .ok (t', []) := by
  cases t with
  | str s =>
      simp only [process_step, Except.ok.injEq, Prod.mk.injEq] at h
      rw [← h.1]
      rfl
  | int n =>
      simp only [process_step, Except.ok.injEq, Prod.mk.injEq] at h
      rw [← h.1]
      rfl
  | bool b =>
      simp only [process_step, Except.ok.injEq, Prod.mk.injEq] at h
      rw [← h.1]
      rfl
  | null =>
      simp only [process_step, Except.ok.injEq, Prod.mk.injEq] at h
      rw [← h.1]
      rfl
  | list l =>
      simp only [process_step, Except.ok.injEq, Prod.mk.injEq] at h
      rw [← h.1]
      rfl
  | map kvs =>
      have hnodup : (mapKeys kvs).Nodup := of_decide_eq_true (by simpa [entryOK] using hok)
      by_cases hlen : kvs.length = 1
      · cases kvs with
        | nil => simp at hlen
        | cons p r0 =>
            cases r0 with
            | cons q r => simp at hlen
            | nil =>
                obtain ⟨k, cfg⟩ := p
                cases hg : is_generic_test k with
                | error e =>
                    simp only [process_step, hg] at h
                    exact Except.noConfusion h
                | ok g =>
                    rw [process_step_single k cfg g hg] at h
                    by_cases h1 : (g && isDict cfg) = true
                    · rw [if_pos h1] at h
                      by_cases h2 : needs_migration cfg = true
                      · rw [if_pos h2] at h
                        simp only [Except.ok.injEq, Prod.mk.injEq] at h
                        rw [← h.1]
                        rw [process_step_single k (migrate_test_dict cfg) g hg]
                        have hg' : g = true := by
                          have h1' := h1
                          simp only [Bool.and_eq_true] at h1'
                          exact h1'.1
                        have hd := migrate_isDict cfg h2
                        rw [if_pos (show (g && isDict (migrate_test_dict cfg)) = true by
                          simp [hg', hd])]
                        rw [if_neg (by simp [needs_migration_migrate_false cfg h2])]
                      · rw [if_neg h2] at h
                        simp only [Except.ok.injEq, Prod.mk.injEq] at h
                        rw [← h.1]
                        rw [process_step_single k cfg g hg, if_pos h1, if_neg h2]
                    · rw [if_neg h1] at h
                      simp only [Except.ok.injEq, Prod.mk.injEq] at h
                      rw [← h.1]
                      rw [process_step_single k cfg g hg, if_neg h1]
      · cases hf : lookupVal kvs (Val.str "test_name") with
        | none =>
            rw [process_step_nofound kvs hlen hf] at h
            simp only [Except.ok.injEq, Prod.mk.injEq] at h
            rw [← h.1]
            exact process_step_nofound kvs hlen hf
        | some tn =>
            cases hg : is_generic_test tn with
            | error e =>
                rw [process_step_found_err kvs tn e hlen hf hg] at h
                exact Except.noConfusion h
            | ok g =>
                rw [process_step_found kvs tn g hlen hf hg] at h
                by_cases h1 : g = true
                · rw [if_pos h1] at h
                  by_cases h2 : needs_migration (.map kvs) = true
                  · rw [if_pos h2] at h
                    simp only [Except.ok.injEq, Prod.mk.injEq] at h
                    rw [← h.1]
                    have hchar := migrate_test_dict_spec kvs h2 hnodup
                    have hmemtn : (Val.str "test_name", tn) ∈ kvs := lookupVal_mem hf
                    have hFmem : (Val.str "test_name", tn) ∈
                        kvs.filter (fun kv => isReservedKey kv.1) :=
                      List.mem_filter.mpr ⟨hmemtn, isReservedKey_test_name⟩
                    have hFpos : 0 < (kvs.filter (fun kv => isReservedKey kv.1)).length :=
                      List.length_pos.mpr (List.ne_nil_of_mem hFmem)
                    have hlen' : (kvs.filter (fun kv => isReservedKey kv.1) ++
                        [(Val.str "arguments",
                          Val.map (kvs.filter (fun kv => !isReservedKey kv.1)))]).length ≠ 1 := by
                      simp only [List.length_append, List.length_cons, List.length_nil]
                      omega
                    have hf' : lookupVal
                        (kvs.filter (fun kv => isReservedKey kv.1) ++
                         [(Val.str "arguments",
                           Val.map (kvs.filter (fun kv => !isReservedKey kv.1)))])
                        (Val.str "test_name") = some tn :=
                      lookupVal_append_left (lookupVal_filter_res isReservedKey_test_name hf)
                    have hneeds' := needs_migration_migrate_false (.map kvs) h2
                    rw [hchar] at hneeds'
                    rw [hchar]
                    rw [process_step_found _ tn g hlen' hf' hg]
                    rw [if_pos h1, if_neg (by simp [hneeds'])]
                  · rw [if_neg h2] at h
                    simp only [Except.ok.injEq, Prod.mk.injEq] at h
                    rw [← h.1]
                    rw [process_step_found kvs tn g hlen hf hg, if_pos h1, if_neg h2]
                · rw [if_neg h1] at h
                  simp only [Except.ok.injEq, Prod.mk.injEq] at h
                  rw [← h.1]
                  rw [process_step_found kvs tn g hlen hf hg, if_neg h1]

/-- Reprocessing the output of `process_test_list` is the identity and
records no names. -/
lemma process_test_list_stable :
    ∀ (tests out names : List Val),
      (∀ t ∈ tests, entryOK t = true) →
      process_test_list tests = .ok (out, names) →
      process_test_list out = .ok (out, []) := by
  intro tests
  induction tests with
  | nil =>
      intro out names _ h
      simp only [process_test_list, Except.ok.injEq, Prod.mk.injEq] at h
      rw [← h.1]
      rfl
  | cons t rest ih =>
      intro out names hok h
      simp only [process_test_list] at h
      cases hs : process_step t with
      | error e => rw [hs] at h; exact Except.noConfusion h
      | ok p =>
          obtain ⟨t', ns⟩ := p
          rw [hs] at h
          cases hr : process_test_list rest with
          | error e => rw [hr] at h; exact Except.noConfusion h
          | ok q =>
              obtain ⟨out', names'⟩ := q
              rw [hr] at h
              simp only [Except.ok.injEq, Prod.mk.injEq] at h
              obtain ⟨hout, -⟩ := h
              subst hout
              have hstep := process_step_stable t t' ns (hok t (by simp)) hs
              have hrest := ih out' names' (fun u hu => hok u (by simp [hu])) hr
              simp only [process_test_list, hstep, hrest, List.nil_append]

/-! ### C7: pass-through shapes -/

/-- C7 counterexample: a single-key mapping whose only field is
`test_name` — a member of the reserved set, so a "mapping containing only
reserved fields" — is not passed through unchanged: the key `test_name`
classifies as a generic check (the structural-key set of the classifier
contains `arguments` but not `test_name`), so the entry is migrated and
the name `test_name` is recorded. -/
theorem process_test_list_reserved_counterexample :
    (∀ k ∈ mapKeys [(Val.str "test_name", Val.map [(Val.str "foo", Val.int 1)])],
       k ∈ reserved_keys.map Val.str) ∧
    process_test_list
        [.map [(Val.str "test_name", Val.map [(Val.str "foo", Val.int 1)])]] =
      .ok ([.map [(Val.str "test_name",
              Val.map [(Val.str "arguments", Val.map [(Val.str "foo", Val.int 1)])])]],
           [Val.str "test_name"]) :=
  ⟨by decide, by rfl⟩

lemma is_generic_test_str_ok (s : String) : ∃ g, is_generic_test (.str s) = .ok g := by
  simp only [is_generic_test]
  by_cases h1 : s ∈ ALL_GENERIC_TESTS
  · exact ⟨true, by rw [if_pos h1]⟩
  · by_cases h2 : '.' ∈ s.data
    · exact ⟨true, by rw [if_neg h1, if_pos h2]⟩
    · exact ⟨decide (s ∉ config_keys), by rw [if_neg h1, if_neg h2]⟩

lemma process_test_list_cons_pass (t : Val) (rest : List Val)
    (hstep : process_step t = .ok (t, [])) :
    process_test_list (t :: rest) =
      Except.map (fun r => (t :: r.1, r.2)) (process_test_list rest) := by
  simp only [process_test_list, hstep]
  cases hr : process_test_list rest with
  | error e => simp [Except.map]
  | ok q => simp [Except.map]

/-- C7 (amended): a check-list entry that is a bare string, a non-string
non-mapping value, a multi-key mapping without a `test_name` key, or a
mapping containing only reserved fields — excluding the single-key
`test_name` mapping whose value is a mapping needing migration (which is
migrated, see the counterexample) and excluding multi-key mappings whose
`test_name` value is not a string (where the classifier raises) — is
passed through structurally unchanged with no name recorded. -/
theorem process_test_list_passthrough (t : Val) (rest : List Val)
    (hshape :
      (∃ s, t = Val.str s) ∨
      (∃ kvs, t = Val.map kvs ∧
        (∀ k ∈ mapKeys kvs, k ∈ reserved_keys.map Val.str) ∧
        (∀ k cfg, kvs = [(k, cfg)] → k = Val.str "test_name" →
          isDict cfg = true → needs_migration cfg = false) ∧
        (kvs.length ≠ 1 → ∀ tn, lookupVal kvs (Val.str "test_name") = some tn →
          ∃ s, tn = Val.str s)) ∨
      (∃ kvs, t = Val.map kvs ∧ 1 < kvs.length ∧
        lookupVal kvs (Val.str "test_name") = none) ∨
      (∃ n, t = Val.int n) ∨ (∃ b, t = Val.bool b) ∨ t = Val.null ∨
      (∃ l, t = Val.list l)) :
    process_test_list (t :: rest) =
      Except.map (fun r => (t :: r.1, r.2)) (process_test_list rest) := by
  apply process_test_list_cons_pass
  rcases hshape with ⟨s, rfl⟩ | ⟨kvs, rfl, hres, hsingle, hmulti⟩ |
    ⟨kvs, rfl, hlen, hnone⟩ | ⟨n, rfl⟩ | ⟨b, rfl⟩ | rfl | ⟨l, rfl⟩
  · rfl
  · by_cases hlen : kvs.length = 1
    · cases kvs with
      | nil => simp at hlen
      | cons p r0 =>
          cases r0 with
          | cons q r => simp at hlen
          | nil =>
              obtain ⟨k, cfg⟩ := p
              have hk : k ∈ reserved_keys.map Val.str := hres k (by simp [mapKeys])
              simp only [reserved_keys, List.map_cons, List.map_nil,
                List.mem_cons, List.not_mem_nil, or_false] at hk
              rcases hk with rfl | rfl | rfl | rfl | rfl | rfl
              · rw [process_step_single _ cfg false (by rfl)]
                simp
              · rw [process_step_single _ cfg false (by rfl)]
                simp
              · rw [process_step_single _ cfg false (by rfl)]
                simp
              · rw [process_step_single _ cfg false (by rfl)]
                simp
              · rw [process_step_single _ cfg false (by rfl)]
                simp
              · rw [process_step_single _ cfg true (by rfl)]
                by_cases hd : isDict cfg = true
                · have hnd : needs_migration cfg = false :=
                    hsingle (Val.str "test_name") cfg rfl rfl hd
                  rw [if_pos (show (true && isDict cfg) = true by simp [hd])]
                  rw [if_neg (by simp [hnd])]
                · have hd' : isDict cfg = false := by
                    revert hd
                    cases isDict cfg <;> simp
                  rw [if_neg (by simp [hd'])]
    · cases hf : lookupVal kvs (Val.str "test_name") with
      | none => exact process_step_nofound kvs hlen hf
      | some tn =>
          obtain ⟨s, rfl⟩ := hmulti hlen tn hf
          obtain ⟨g, hg⟩ := is_generic_test_str_ok s
          rw [process_step_found kvs _ g hlen hf hg]
          have hneeds : needs_migration (.map kvs) = false := by
            simp only [needs_migration]
            rw [if_neg ?_]
            · cases hany : kvs.any (fun kv => !isReservedKey kv.1) with
              | false => rfl
              | true =>
                  obtain ⟨p, hp, hnp⟩ := List.any_eq_true.mp hany
                  have hpk : p.1 ∈ reserved_keys.map Val.str :=
                    hres p.1 (List.mem_map.mpr ⟨p, hp, rfl⟩)
                  simp [isReservedKey, hpk] at hnp
            · intro hmem
              exact absurd (hres _ hmem) (by decide)
          by_cases h1 : g = true
          · rw [if_pos h1, if_neg (by simp [hneeds])]
          · rw [if_neg h1]
  · cases hf : lookupVal kvs (Val.str "test_name") with
    | some tn => exact absurd hnone (by simp [hf])
    | none => exact process_step_nofound kvs (by omega) hf
  · rfl
  · rfl
  · rfl
  · rfl

/-- C7 witness: a bare string entry passes through. -/
theorem process_test_list_passthrough_witness :
    process_test_list [Val.str "not_null"] =
      Except.map (fun r => (Val.str "not_null" :: r.1, r.2))
        (process_test_list []) :=
  process_test_list_passthrough (Val.str "not_null") []
    (Or.inl ⟨"not_null", rfl⟩)

/-! ### C8: dry-run mode -/

/-- C8: with dry-run on, `migrate_file` never writes the source file,
whatever the document holds; and the migration-report entry is recorded
identically with and without dry-run. -/
theorem migrate_file_dry_run (input : FileInput) :
    (migrate_file true input).wrote = false ∧
    (migrate_file true input).report = (migrate_file false input).report := by
  cases input with
  | readError => exact ⟨rfl, rfl⟩
  | parseError => exact ⟨rfl, rfl⟩
  | parsed v =>
      simp only [migrate_file]
      cases ht : truthy v with
      | false => exact ⟨rfl, rfl⟩
      | true =>
          cases hp : process_yaml_content v with
          | error e => exact ⟨rfl, rfl⟩
          | ok q =>
              obtain ⟨d, names⟩ := q
              cases hn : names.isEmpty with
              | true => constructor <;> simp [hn]
              | false => constructor <;> simp [hn]

/-! ### C9: exit status and the per-file error boundary -/

/-- C9: the run exits non-zero exactly when the models directory is
missing (checked before any file is processed); any error escaping the
document walker for one file is caught at the per-file boundary of
`migrate_file` — the file yields no write, no report entry and a `False`
result — and the run continues over the remaining files unchanged. -/
theorem main_exit_spec :
    (∀ (dirExists dry : Bool) (files : List FileInput),
       main_exit dirExists dry files = 0 ↔ dirExists = true) ∧
    (∀ (dry : Bool) (v : Val) (e : String),
       process_yaml_content v = .error e →
       migrate_file dry (.parsed v) = ⟨false, none, false⟩ ∧
       ∀ rest : List FileInput,
         run_migration dry (.parsed v :: rest) = run_migration dry rest) := by
  constructor
  · intro dirExists dry files
    cases dirExists with
    | false => simp [main_exit]
    | true => simp [main_exit]
  · intro dry v e hp
    have hm : migrate_file dry (.parsed v) = ⟨false, none, false⟩ := by
      simp only [migrate_file]
      cases ht : truthy v with
      | false => rfl
      | true => simp [hp]
    refine ⟨hm, ?_⟩
    intro rest
    simp only [run_migration, List.foldl_cons]
    congr 1
    simp [hm]

/-- C9 witness: a document whose walker raises (boolean `test_name`)
yields no report and does not disturb the rest of the run; a present
models directory exits 0. -/
theorem main_exit_spec_witness :
    main_exit true false [] = 0 ∧
    migrate_file false
        (.parsed (.map [(Val.str "seeds", Val.list
          [.map [(Val.str "data_tests", Val.list
            [.map [(Val.str "test_name", Val.bool true),
                   (Val.str "x", Val.int 1)]])]])])) = ⟨false, none, false⟩ ∧
    run_migration false
        [.parsed (.map [(Val.str "seeds", Val.list
          [.map [(Val.str "data_tests", Val.list
            [.map [(Val.str "test_name", Val.bool true),
                   (Val.str "x", Val.int 1)]])]])])] =
      run_migration false [] :=
  ⟨(main_exit_spec.1 true false []).mpr rfl,
   (main_exit_spec.2 false
      (.map [(Val.str "seeds", Val.list
        [.map [(Val.str "data_tests", Val.list
          [.map [(Val.str "test_name", Val.bool true),
                 (Val.str "x", Val.int 1)]])]])]) "TypeError" (by rfl)).1,
   (main_exit_spec.2 false
      (.map [(Val.str "seeds", Val.list
        [.map [(Val.str "data_tests", Val.list
          [.map [(Val.str "test_name", Val.bool true),
                 (Val.str "x", Val.int 1)]])]])]) "TypeError" (by rfl)).2 []⟩

/-! ### C10: non-string name position aborts the whole file -/

/-- C10: in a syntactically valid document holding one declaration that
needs migration and a second whose `test_name` value is the integer 5,
the classifier's containment test raises `TypeError`, the whole file's
processing aborts, the exception is caught at the file boundary
(`migrate_file` returns `False`), the file is not written, and no
declaration is recorded as migrated — including the first one, which
needed migration. -/
theorem file_abort_on_nonstring_name :
    process_yaml_content
        (.map [(Val.str "models", Val.list
          [.map [(Val.str "tests", Val.list
            [.map [(Val.str "accepted_values",
                    Val.map [(Val.str "values", Val.list [Val.str "a"])])],
             .map [(Val.str "test_name", Val.int 5),
                   (Val.str "x", Val.int 1)]])]])]) =
      .error "TypeError" ∧
    migrate_file false
        (.parsed (.map [(Val.str "models", Val.list
          [.map [(Val.str "tests", Val.list
            [.map [(Val.str "accepted_values",
                    Val.map [(Val.str "values", Val.list [Val.str "a"])])],
             .map [(Val.str "test_name", Val.int 5),
                   (Val.str "x", Val.int 1)]])]])])) = ⟨false, none, false⟩ ∧
    is_generic_test (Val.int 5) = .error "TypeError" ∧
    needs_migration
        (Val.map [(Val.str "values", Val.list [Val.str "a"])]) = true :=
  ⟨rfl, rfl, rfl, rfl⟩

/-! ### Document well-formedness: extraction and preservation -/

lemma listOK_iff {l : List Val} : listOK l = true ↔ ∀ c ∈ l, valOK c = true := by
  induction l with
  | nil => simp [listOK]
  | cons v rest ih =>
      simp only [listOK, Bool.and_eq_true, ih, List.mem_cons]
      constructor
      · rintro ⟨h1, h2⟩ c (rfl | hc)
        · exact h1
        · exact h2 c hc
      · intro h
        exact ⟨h v (Or.inl rfl), fun c hc => h c (Or.inr hc)⟩

lemma pairsOK_iff {kvs : List (Val × Val)} :
    pairsOK kvs = true ↔ ∀ kv ∈ kvs, valOK kv.1 = true ∧ valOK kv.2 = true := by
  induction kvs with
  | nil => simp [pairsOK]
  | cons p rest ih =>
      obtain ⟨k, v⟩ := p
      simp only [pairsOK, Bool.and_eq_true, ih, List.mem_cons]
      constructor
      · rintro ⟨⟨h1, h2⟩, h3⟩ kv (rfl | hkv)
        · exact ⟨h1, h2⟩
        · exact h3 kv hkv
      · intro h
        exact ⟨⟨(h (k, v) (Or.inl rfl)).1, (h (k, v) (Or.inl rfl)).2⟩,
          fun kv hkv => h kv (Or.inr hkv)⟩

lemma valOK_map_iff {kvs : List (Val × Val)} :
    valOK (.map kvs) = true ↔
      (mapKeys kvs).Nodup ∧ (∀ kv ∈ kvs, scalarKey kv.1 = true) ∧
      pairsOK kvs = true := by
  simp [valOK, List.all_eq_true, and_assoc]

lemma valOK_list_iff {l : List Val} :
    valOK (.list l) = true ↔ ∀ c ∈ l, valOK c = true := by
  simp [valOK, listOK_iff]

lemma entryOK_of_valOK {t : Val} (h : valOK t = true) : entryOK t = true := by
  cases t with
  | map kvs =>
      simp only [entryOK, decide_eq_true_eq]
      exact (valOK_map_iff.mp h).1
  | str s => rfl
  | int n => rfl
  | bool b => rfl
  | null => rfl
  | list l => rfl

lemma valOK_of_scalar {k : Val} (h : scalarKey k = true) : valOK k = true := by
  cases k with
  | str s => rfl
  | int n => rfl
  | bool b => rfl
  | null => rfl
  | list l => exact Bool.noConfusion h
  | map kvs => exact Bool.noConfusion h

lemma valOK_lookup {kvs : List (Val × Val)} {k v : Val}
    (hok : valOK (.map kvs) = true) (h : lookupVal kvs k = some v) :
    valOK v = true :=
  ((pairsOK_iff.mp (valOK_map_iff.mp hok).2.2) (k, v) (lookupVal_mem h)).2

lemma zip_fst_snd (l : List (Val × Val)) :
    (l.map Prod.fst).zip (l.map Prod.snd) = l := by
  induction l with
  | nil => rfl
  | cons p rest ih =>
      obtain ⟨k, v⟩ := p
      simp [ih]

/-! ### Lookup algebra of `pyInsert` (Python dict assignment) -/

lemma lookupVal_map_update_self (kvs : List (Val × Val)) (k v : Val)
    (hmem : k ∈ mapKeys kvs) :
    lookupVal (kvs.map (fun kv => if kv.1 = k then (k, v) else kv)) k = some v := by
  induction kvs with
  | nil => simp [mapKeys] at hmem
  | cons q rest ih =>
      obtain ⟨k0, v0⟩ := q
      simp only [List.map_cons]
      by_cases hq : k0 = k
      · rw [show (if ((k0, v0) : Val × Val).1 = k then (k, v) else (k0, v0)) = (k, v)
          from if_pos hq]
        rw [lookupVal, if_pos rfl]
      · rw [show (if ((k0, v0) : Val × Val).1 = k then (k, v) else (k0, v0)) = (k0, v0)
          from if_neg hq]
        rw [lookupVal, if_neg hq]
        apply ih
        simp only [mapKeys, List.map_cons, List.mem_cons] at hmem
        rcases hmem with h | h
        · exact absurd h.symm hq
        · exact h

lemma lookupVal_append_single (kvs : List (Val × Val)) (k v : Val)
    (hnot : k ∉ mapKeys kvs) :
    lookupVal (kvs ++ [(k, v)]) k = some v := by
  induction kvs with
  | nil => rw [List.nil_append, lookupVal, if_pos rfl]
  | cons q rest ih =>
      obtain ⟨k0, v0⟩ := q
      rw [List.cons_append, lookupVal, if_neg ?_]
      · apply ih
        intro hmem
        exact hnot (by simp only [mapKeys, List.map_cons, List.mem_cons]
                       exact Or.inr hmem)
      · intro he
        exact hnot (by simp [mapKeys, he])

lemma lookupVal_pyInsert_self (kvs : List (Val × Val)) (k v : Val) :
    lookupVal (pyInsert kvs k v) k = some v := by
  rw [pyInsert]
  split
  · exact lookupVal_map_update_self kvs k v (by assumption)
  · exact lookupVal_append_single kvs k v (by assumption)

lemma lookupVal_map_update_other (kvs : List (Val × Val)) (k v k' : Val)
    (hne : k' ≠ k) :
    lookupVal (kvs.map (fun kv => if kv.1 = k then (k, v) else kv)) k' =
      lookupVal kvs k' := by
  induction kvs with
  | nil => rfl
  | cons q rest ih =>
      obtain ⟨k0, v0⟩ := q
      simp only [List.map_cons]
      by_cases hq : k0 = k
      · rw [show (if ((k0, v0) : Val × Val).1 = k then (k, v) else (k0, v0)) = (k, v)
          from if_pos hq]
        rw [lookupVal, lookupVal]
        rw [if_neg (show ¬(k = k') from fun he => hne he.symm),
          if_neg (show ¬(k0 = k') from fun he => hne ((hq ▸ he : k = k')).symm)]
        exact ih
      · rw [show (if ((k0, v0) : Val × Val).1 = k then (k, v) else (k0, v0)) = (k0, v0)
          from if_neg hq]
        rw [lookupVal, lookupVal]
        by_cases h0 : k0 = k'
        · rw [if_pos h0, if_pos h0]
        · rw [if_neg h0, if_neg h0]
          exact ih

lemma lookupVal_append_other (kvs : List (Val × Val)) (k v k' : Val)
    (hne : k' ≠ k) :
    lookupVal (kvs ++ [(k, v)]) k' = lookupVal kvs k' := by
  induction kvs with
  | nil =>
      simp only [List.nil_append, lookupVal]
      rw [if_neg (show ¬(k = k') from fun he => hne he.symm)]
  | cons q rest ih =>
      obtain ⟨k0, v0⟩ := q
      rw [List.cons_append, lookupVal, lookupVal]
      by_cases h0 : k0 = k'
      · rw [if_pos h0, if_pos h0]
      · rw [if_neg h0, if_neg h0]
        exact ih

lemma lookupVal_pyInsert_other (kvs : List (Val × Val)) (k v k' : Val)
    (hne : k' ≠ k) : lookupVal (pyInsert kvs k v) k' = lookupVal kvs k' := by
  rw [pyInsert]
  split
  · exact lookupVal_map_update_other kvs k v k' hne
  · exact lookupVal_append_other kvs k v k' hne

lemma mapKeys_pyInsert_of_mem (kvs : List (Val × Val)) (k v : Val)
    (hmem : k ∈ mapKeys kvs) : mapKeys (pyInsert kvs k v) = mapKeys kvs := by
  rw [pyInsert, if_pos hmem]
  simp only [mapKeys, List.map_map]
  apply List.map_congr_left
  intro kv _
  by_cases hk : kv.1 = k
  · simp [Function.comp, hk]
  · simp [Function.comp, hk]

lemma nodup_keys_pair_eq {kvs : List (Val × Val)} (hnodup : (mapKeys kvs).Nodup)
    {p q : Val × Val} (hp : p ∈ kvs) (hq : q ∈ kvs) (h1 : p.1 = q.1) : p = q := by
  induction kvs with
  | nil => exact absurd hp (List.not_mem_nil p)
  | cons a rest ih =>
      simp only [mapKeys, List.map_cons, List.nodup_cons] at hnodup
      rcases List.mem_cons.mp hp with rfl | hp'
      · rcases List.mem_cons.mp hq with rfl | hq'
        · rfl
        · exact absurd (by rw [h1]; exact List.mem_map.mpr ⟨q, hq', rfl⟩) hnodup.1
      · rcases List.mem_cons.mp hq with rfl | hq'
        · exact absurd (by rw [← h1]; exact List.mem_map.mpr ⟨p, hp', rfl⟩) hnodup.1
        · exact ih hnodup.2 hp' hq'

lemma pyInsert_map_noop (kvs : List (Val × Val)) (k v : Val)
    (h : ∀ kv ∈ kvs, kv.1 = k → kv = (k, v)) :
    List.map (fun kv => if kv.1 = k then (k, v) else kv) kvs = kvs := by
  induction kvs with
  | nil => rfl
  | cons q rest ih =>
      simp only [List.map_cons]
      have h1 : (if q.1 = k then (k, v) else q) = q := by
        by_cases hq : q.1 = k
        · rw [if_pos hq]
          exact (h q (by simp) hq).symm
        · rw [if_neg hq]
      rw [h1, ih (fun kv hkv hk1 => h kv (by simp [hkv]) hk1)]

lemma pyInsert_lookup_self (kvs : List (Val × Val)) (k v : Val)
    (hnodup : (mapKeys kvs).Nodup) (h : lookupVal kvs k = some v) :
    pyInsert kvs k v = kvs := by
  have hkv : (k, v) ∈ kvs := lookupVal_mem h
  have hmem : k ∈ mapKeys kvs := List.mem_map.mpr ⟨(k, v), hkv, rfl⟩
  rw [pyInsert, if_pos hmem]
  apply pyInsert_map_noop
  intro kv hkvmem hk1
  exact nodup_keys_pair_eq hnodup hkvmem hkv hk1

/-! ### Entries unchanged when no name is recorded -/

lemma process_step_nil (t t' : Val) (h : process_step t = .ok (t', [])) :
    t' = t := by
  cases t with
  | map kvs =>
      simp only [process_step] at h
      repeat' (split at h)
      all_goals
        first
          | exact Except.noConfusion h
          | (simp only [Except.ok.injEq, Prod.mk.injEq] at h
             first
               | exact h.1.symm
               | exact absurd h.2.symm (by simp))
  | str s =>
      simp only [process_step, Except.ok.injEq, Prod.mk.injEq] at h
      exact h.1.symm
  | int n =>
      simp only [process_step, Except.ok.injEq, Prod.mk.injEq] at h
      exact h.1.symm
  | bool b =>
      simp only [process_step, Except.ok.injEq, Prod.mk.injEq] at h
      exact h.1.symm
  | null =>
      simp only [process_step, Except.ok.injEq, Prod.mk.injEq] at h
      exact h.1.symm
  | list l =>
      simp only [process_step, Except.ok.injEq, Prod.mk.injEq] at h
      exact h.1.symm

lemma process_test_list_nil (tests out : List Val)
    (h : process_test_list tests = .ok (out, [])) : out = tests := by
  induction tests generalizing out with
  | nil =>
      simp only [process_test_list, Except.ok.injEq, Prod.mk.injEq] at h
      exact h.1.symm
  | cons t rest ih =>
      simp only [process_test_list] at h
      cases hs : process_step t with
      | error e => rw [hs] at h; exact Except.noConfusion h
      | ok p =>
          obtain ⟨t', ns⟩ := p
          rw [hs] at h
          cases hr : process_test_list rest with
          | error e => rw [hr] at h; exact Except.noConfusion h
          | ok q =>
              obtain ⟨out', names'⟩ := q
              rw [hr] at h
              simp only [Except.ok.injEq, Prod.mk.injEq] at h
              obtain ⟨hout, hn⟩ := h
              obtain ⟨hns, hnames⟩ := List.append_eq_nil.mp hn
              subst hns
              rw [← hout, process_step_nil t t' hs, ih out' (hnames ▸ hr)]

/-! ### Well-formedness is preserved by the migration -/

lemma valOK_pyInsert (kvs : List (Val × Val)) (k v : Val)
    (hok : valOK (.map kvs) = true) (hk : scalarKey k = true)
    (hv : valOK v = true) :
    valOK (.map (pyInsert kvs k v)) = true := by
  obtain ⟨hnodup, hscalar, hpairs⟩ := valOK_map_iff.mp hok
  by_cases hmem : k ∈ mapKeys kvs
  · have hkeys := mapKeys_pyInsert_of_mem kvs k v hmem
    rw [pyInsert, if_pos hmem] at hkeys ⊢
    apply valOK_map_iff.mpr
    refine ⟨hkeys ▸ hnodup, ?_, pairsOK_iff.mpr ?_⟩
    · intro kv' hkv'
      obtain ⟨kv, hkv, rfl⟩ := List.mem_map.mp hkv'
      by_cases hq : kv.1 = k
      · rw [if_pos hq]
        exact hk
      · rw [if_neg hq]
        exact hscalar kv hkv
    · intro kv' hkv'
      obtain ⟨kv, hkv, rfl⟩ := List.mem_map.mp hkv'
      by_cases hq : kv.1 = k
      · rw [if_pos hq]
        exact ⟨valOK_of_scalar hk, hv⟩
      · rw [if_neg hq]
        exact pairsOK_iff.mp hpairs kv hkv
  · rw [pyInsert, if_neg hmem]
    apply valOK_map_iff.mpr
    refine ⟨?_, ?_, pairsOK_iff.mpr ?_⟩
    · have hkeys : mapKeys (kvs ++ [(k, v)]) = mapKeys kvs ++ [k] := by
        simp [mapKeys]
      rw [hkeys]
      exact List.Nodup.append hnodup (List.nodup_singleton k)
        (fun a ha hb => hmem (by simp only [List.mem_singleton] at hb; exact hb ▸ ha))
    · intro kv hkv
      rcases List.mem_append.mp hkv with h1 | h1
      · exact hscalar kv h1
      · obtain rfl : kv = (k, v) := by simpa using h1
        exact hk
    · intro kv hkv
      rcases List.mem_append.mp hkv with h1 | h1
      · exact pairsOK_iff.mp hpairs kv h1
      · obtain rfl : kv = (k, v) := by simpa using h1
        exact ⟨valOK_of_scalar hk, hv⟩

lemma valOK_mapSet (d : Val) (key : String) (v : Val)
    (hd : valOK d = true) (hv : valOK v = true) :
    valOK (mapSet d key v) = true := by
  cases d with
  | map kvs => exact valOK_pyInsert kvs (Val.str key) v hd rfl hv
  | str s => exact hd
  | int n => exact hd
  | bool b => exact hd
  | null => exact hd
  | list l => exact hd

lemma valOK_migrate (m : Val) (hok : valOK m = true) :
    valOK (migrate_test_dict m) = true := by
  by_cases hn : needs_migration m = true
  · cases m with
    | map kvs =>
        obtain ⟨hnodup, hscalar, hpairs⟩ := valOK_map_iff.mp hok
        rw [migrate_test_dict_spec kvs hn hnodup]
        have hsubres : (kvs.filter (fun kv => isReservedKey kv.1)).Sublist kvs :=
          List.filter_sublist kvs
        have hsubnon : (kvs.filter (fun kv => !isReservedKey kv.1)).Sublist kvs :=
          List.filter_sublist kvs
        have hargOK : valOK (Val.map (kvs.filter (fun kv => !isReservedKey kv.1))) = true := by
          apply valOK_map_iff.mpr
          refine ⟨List.Nodup.sublist (List.Sublist.map Prod.fst hsubnon) hnodup, ?_, ?_⟩
          · intro kv hkv
            exact hscalar kv (hsubnon.subset hkv)
          · exact pairsOK_iff.mpr
              (fun kv hkv => pairsOK_iff.mp hpairs kv (hsubnon.subset hkv))
        apply valOK_map_iff.mpr
        refine ⟨?_, ?_, pairsOK_iff.mpr ?_⟩
        · have hargs_mem : (Val.str "arguments") ∉
              mapKeys (kvs.filter (fun kv => isReservedKey kv.1)) := by
            intro hmem
            obtain ⟨kv, _, hres, hk⟩ := mem_keys_filter hmem
            rw [hk] at hres
            exact absurd hres (by decide)
          have hkeys : mapKeys (kvs.filter (fun kv => isReservedKey kv.1) ++
              [(Val.str "arguments",
                Val.map (kvs.filter (fun kv => !isReservedKey kv.1)))]) =
              mapKeys (kvs.filter (fun kv => isReservedKey kv.1)) ++
                [Val.str "arguments"] := by
            simp [mapKeys]
          rw [hkeys]
          exact List.Nodup.append
            (List.Nodup.sublist (List.Sublist.map Prod.fst hsubres) hnodup)
            (List.nodup_singleton _)
            (fun a ha hb => hargs_mem
              (by simp only [List.mem_singleton] at hb; exact hb ▸ ha))
        · intro kv hkv
          rcases List.mem_append.mp hkv with h1 | h1
          · exact hscalar kv (hsubres.subset h1)
          · obtain rfl : kv = (Val.str "arguments",
                Val.map (kvs.filter (fun kv => !isReservedKey kv.1))) := by
              simpa using h1
            rfl
        · intro kv hkv
          rcases List.mem_append.mp hkv with h1 | h1
          · exact pairsOK_iff.mp hpairs kv (hsubres.subset h1)
          · obtain rfl : kv = (Val.str "arguments",
                Val.map (kvs.filter (fun kv => !isReservedKey kv.1))) := by
              simpa using h1
            exact ⟨rfl, hargOK⟩
    | str s => simp [needs_migration] at hn
    | int n => simp [needs_migration] at hn
    | bool b => simp [needs_migration] at hn
    | null => simp [needs_migration] at hn
    | list l => simp [needs_migration] at hn
  · have hnf : needs_migration m = false := by
      revert hn
      cases needs_migration m <;> simp
    rw [show migrate_test_dict m = m from by simp [migrate_test_dict, hnf]]
    exact hok

lemma process_step_valOK (t t' : Val) (ns : List Val)
    (hok : valOK t = true) (h : process_step t = .ok (t', ns)) :
    valOK t' = true := by
  rcases process_step_shape t t' ns h with rfl | hres
  · exact hok
  · rcases hres with ⟨k, cfg, rfl, rfl⟩ | rfl
    · obtain ⟨hnodup, hscalar, hpairs⟩ := valOK_map_iff.mp hok
      apply valOK_map_iff.mpr
      refine ⟨by exact hnodup, ?_, pairsOK_iff.mpr ?_⟩
      · intro kv hkv
        obtain rfl : kv = (k, migrate_test_dict cfg) := by simpa using hkv
        exact hscalar (k, cfg) (by simp)
      · intro kv hkv
        obtain rfl : kv = (k, migrate_test_dict cfg) := by simpa using hkv
        have hc := pairsOK_iff.mp hpairs (k, cfg) (by simp)
        exact ⟨hc.1, valOK_migrate cfg hc.2⟩
    · exact valOK_migrate t hok

lemma process_test_list_valOK (tests out names : List Val)
    (hok : ∀ t ∈ tests, valOK t = true)
    (h : process_test_list tests = .ok (out, names)) :
    ∀ t ∈ out, valOK t = true := by
  induction tests generalizing out names with
  | nil =>
      simp only [process_test_list, Except.ok.injEq, Prod.mk.injEq] at h
      rw [← h.1]
      intro t ht
      exact absurd ht (List.not_mem_nil t)
  | cons t rest ih =>
      simp only [process_test_list] at h
      cases hs : process_step t with
      | error e => rw [hs] at h; exact Except.noConfusion h
      | ok p =>
          obtain ⟨t', ns⟩ := p
          rw [hs] at h
          cases hr : process_test_list rest with
          | error e => rw [hr] at h; exact Except.noConfusion h
          | ok q =>
              obtain ⟨out', names'⟩ := q
              rw [hr] at h
              simp only [Except.ok.injEq, Prod.mk.injEq] at h
              rw [← h.1]
              intro u hu
              rcases List.mem_cons.mp hu with rfl | hu'
              · exact process_step_valOK t u ns (hok t (by simp)) hs
              · exact ih out' names' (fun w hw => hok w (by simp [hw])) hr u hu'

/-! ### The frame relation -/

lemma pyIndex_ok_map {d : Val} {k : String} {v : Val} (h : pyIndex d k = .ok v) :
    ∃ kvs, d = Val.map kvs ∧ lookupVal kvs (Val.str k) = some v := by
  cases d with
  | map kvs =>
      refine ⟨kvs, rfl, ?_⟩
      simp only [pyIndex] at h
      cases hl : lookupVal kvs (Val.str k) with
      | none => rw [hl] at h; exact Except.noConfusion h
      | some w =>
          rw [hl] at h
          have hwv : w = v := by simpa using h
          rw [hwv]
  | str s => exact Except.noConfusion h
  | int n => exact Except.noConfusion h
  | bool b => exact Except.noConfusion h
  | null => exact Except.noConfusion h
  | list l => exact Except.noConfusion h

lemma keepsOutside_refl (T : List String) (d : Val) : keepsOutside T d d :=
  ⟨fun _ => rfl, fun _ _ => rfl⟩

lemma keepsOutside_trans {T1 T2 : List String} {d1 d2 d3 : Val}
    (h1 : keepsOutside T1 d1 d2) (h2 : keepsOutside T2 d2 d3) :
    keepsOutside (T1 ++ T2) d1 d3 := by
  refine ⟨fun s => (h2.1 s).trans (h1.1 s), fun k hk => ?_⟩
  have hk1 : k ∉ T1 := fun h => hk (List.mem_append.mpr (Or.inl h))
  have hk2 : k ∉ T2 := fun h => hk (List.mem_append.mpr (Or.inr h))
  exact (h2.2 k hk2).trans (h1.2 k hk1)

lemma keepsOutside_mono {T T' : List String} {d d' : Val}
    (hsub : ∀ k ∈ T, k ∈ T') (h : keepsOutside T d d') :
    keepsOutside T' d d' :=
  ⟨h.1, fun k hk => h.2 k (fun hmem => hk (hsub k hmem))⟩

lemma keepsOutside_mapSet (kvs : List (Val × Val)) (key : String) (v : Val)
    (hmem : Val.str key ∈ mapKeys kvs) :
    keepsOutside [key] (.map kvs) (mapSet (.map kvs) key v) := by
  constructor
  · intro s
    simp only [mapSet, pyContains]
    rw [mapKeys_pyInsert_of_mem _ _ _ hmem]
  · intro k hk
    have hne : (Val.str k) ≠ (Val.str key) := by
      intro he
      apply hk
      have : k = key := by simpa using he
      simp [this]
    simp only [mapSet, pyIndex]
    rw [lookupVal_pyInsert_other _ _ _ _ hne]

/-! ### `applyTestKey` with no recorded names leaves the value unchanged -/

lemma applyTestKey_nil (tk : String) (d d' : Val)
    (hok : valOK d = true) (h : applyTestKey tk d = .ok (d', [])) : d' = d := by
  cases hc : pyContains d tk with
  | error e =>
      simp only [applyTestKey, hc] at h
      exact Except.noConfusion h
  | ok c =>
      cases c with
      | false =>
          simp only [applyTestKey, hc, Except.ok.injEq, Prod.mk.injEq] at h
          exact h.1.symm
      | true =>
          cases hi : pyIndex d tk with
          | error e =>
              simp only [applyTestKey, hc, hi] at h
              exact Except.noConfusion h
          | ok v =>
              cases v with
              | list L =>
                  cases hp : process_test_list L with
                  | error e =>
                      simp only [applyTestKey, hc, hi, hp] at h
                      exact Except.noConfusion h
                  | ok q =>
                      obtain ⟨L', ns'⟩ := q
                      simp only [applyTestKey, hc, hi, hp, Except.ok.injEq,
                        Prod.mk.injEq] at h
                      obtain ⟨h1, h2⟩ := h
                      have hL : L' = L := process_test_list_nil L L' (by rw [hp, h2])
                      obtain ⟨kvs, rfl, hlook⟩ := pyIndex_ok_map hi
                      rw [← h1, hL]
                      simp only [mapSet]
                      congr 1
                      exact pyInsert_lookup_self kvs _ _ (valOK_map_iff.mp hok).1 hlook
              | str s =>
                  simp only [applyTestKey, hc, hi, Except.ok.injEq, Prod.mk.injEq] at h
                  exact h.1.symm
              | int n =>
                  simp only [applyTestKey, hc, hi, Except.ok.injEq, Prod.mk.injEq] at h
                  exact h.1.symm
              | bool b =>
                  simp only [applyTestKey, hc, hi, Except.ok.injEq, Prod.mk.injEq] at h
                  exact h.1.symm
              | null =>
                  simp only [applyTestKey, hc, hi, Except.ok.injEq, Prod.mk.injEq] at h
                  exact h.1.symm
              | map kvs =>
                  simp only [applyTestKey, hc, hi, Except.ok.injEq, Prod.mk.injEq] at h
                  exact h.1.symm

/-! ### `applyTestKey`: evaluation, inversion, stability, transport -/

lemma pyContains_map_true {kvs : List (Val × Val)} {s : String}
    (h : pyContains (.map kvs) s = .ok true) : Val.str s ∈ mapKeys kvs := by
  simp only [pyContains, Except.ok.injEq] at h
  exact of_decide_eq_true h

lemma applyTestKey_eval_nocontain (tk : String) (d : Val)
    (h : pyContains d tk = .ok false) : applyTestKey tk d = .ok (d, []) := by
  simp only [applyTestKey, h]

lemma applyTestKey_eval_nonlist (tk : String) (d v : Val)
    (h1 : pyContains d tk = .ok true) (h2 : pyIndex d tk = .ok v)
    (h3 : ∀ L, v ≠ Val.list L) : applyTestKey tk d = .ok (d, []) := by
  cases v with
  | list L => exact absurd rfl (h3 L)
  | str s => simp only [applyTestKey, h1, h2]
  | int n => simp only [applyTestKey, h1, h2]
  | bool b => simp only [applyTestKey, h1, h2]
  | null => simp only [applyTestKey, h1, h2]
  | map kvs => simp only [applyTestKey, h1, h2]

lemma applyTestKey_eval_list (tk : String) (d : Val) (L L' ns : List Val)
    (h1 : pyContains d tk = .ok true) (h2 : pyIndex d tk = .ok (.list L))
    (h3 : process_test_list L = .ok (L', ns)) :
    applyTestKey tk d = .ok (mapSet d tk (.list L'), ns) := by
  simp only [applyTestKey, h1, h2, h3]

lemma applyTestKey_inv (tk : String) (d d' : Val) (ns : List Val)
    (h : applyTestKey tk d = .ok (d', ns)) :
    (pyContains d tk = .ok false ∧ d' = d ∧ ns = []) ∨
    (pyContains d tk = .ok true ∧ ∃ v, pyIndex d tk = .ok v ∧
      (((∀ L, v ≠ Val.list L) ∧ d' = d ∧ ns = []) ∨
       (∃ L L', v = Val.list L ∧ process_test_list L = .ok (L', ns) ∧
         d' = mapSet d tk (.list L')))) := by
  cases hc : pyContains d tk with
  | error e =>
      simp only [applyTestKey, hc] at h
      exact Except.noConfusion h
  | ok c =>
      cases c with
      | false =>
          simp only [applyTestKey, hc, Except.ok.injEq, Prod.mk.injEq] at h
          exact Or.inl ⟨rfl, h.1.symm, h.2.symm⟩
      | true =>
          cases hi : pyIndex d tk with
          | error e =>
              simp only [applyTestKey, hc, hi] at h
              exact Except.noConfusion h
          | ok v =>
              refine Or.inr ⟨rfl, v, rfl, ?_⟩
              cases v with
              | list L =>
                  cases hp : process_test_list L with
                  | error e =>
                      simp only [applyTestKey, hc, hi, hp] at h
                      exact Except.noConfusion h
                  | ok q =>
                      obtain ⟨L', ns'⟩ := q
                      simp only [applyTestKey, hc, hi, hp, Except.ok.injEq,
                        Prod.mk.injEq] at h
                      exact Or.inr ⟨L, L', rfl, by rw [hp, h.2], h.1.symm⟩
              | str s =>
                  simp only [applyTestKey, hc, hi, Except.ok.injEq, Prod.mk.injEq] at h
                  exact Or.inl ⟨fun L hL => Val.noConfusion hL, h.1.symm, h.2.symm⟩
              | int n =>
                  simp only [applyTestKey, hc, hi, Except.ok.injEq, Prod.mk.injEq] at h
                  exact Or.inl ⟨fun L hL => Val.noConfusion hL, h.1.symm, h.2.symm⟩
              | bool b =>
                  simp only [applyTestKey, hc, hi, Except.ok.injEq, Prod.mk.injEq] at h
                  exact Or.inl ⟨fun L hL => Val.noConfusion hL, h.1.symm, h.2.symm⟩
              | null =>
                  simp only [applyTestKey, hc, hi, Except.ok.injEq, Prod.mk.injEq] at h
                  exact Or.inl ⟨fun L hL => Val.noConfusion hL, h.1.symm, h.2.symm⟩
              | map kvs =>
                  simp only [applyTestKey, hc, hi, Except.ok.injEq, Prod.mk.injEq] at h
                  exact Or.inl ⟨fun L hL => Val.noConfusion hL, h.1.symm, h.2.symm⟩

/-- Re-running `applyTestKey` on its own output is the identity; the
mutation only touches the value under `tk` and keeps everything else. -/
lemma applyTestKey_stable (tk : String) (d d' : Val) (ns : List Val)
    (hok : valOK d = true) (h : applyTestKey tk d = .ok (d', ns)) :
    valOK d' = true ∧ keepsOutside [tk] d d' ∧
      applyTestKey tk d' = .ok (d', []) := by
  rcases applyTestKey_inv tk d d' ns h with ⟨hc, rfl, rfl⟩ | ⟨hc, v, hi, hrest⟩
  · exact ⟨hok, keepsOutside_refl _ _, applyTestKey_eval_nocontain tk d' hc⟩
  · rcases hrest with ⟨hnl, rfl, rfl⟩ | ⟨L, L', rfl, hp, rfl⟩
    · exact ⟨hok, keepsOutside_refl _ _,
        applyTestKey_eval_nonlist tk d' v hc hi hnl⟩
    · obtain ⟨kvs, rfl, hlook⟩ := pyIndex_ok_map hi
      have hmem : Val.str tk ∈ mapKeys kvs := pyContains_map_true hc
      have hLOK : ∀ t ∈ L, valOK t = true :=
        valOK_list_iff.mp (valOK_lookup hok hlook)
      have hL'OK : ∀ t ∈ L', valOK t = true :=
        process_test_list_valOK L L' ns hLOK hp
      have hok' : valOK (mapSet (.map kvs) tk (.list L')) = true :=
        valOK_mapSet _ tk _ hok (valOK_list_iff.mpr hL'OK)
      have hkeeps := keepsOutside_mapSet kvs tk (.list L') hmem
      refine ⟨hok', hkeeps, ?_⟩
      have hc' : pyContains (mapSet (.map kvs) tk (.list L')) tk = .ok true :=
        (hkeeps.1 tk).trans hc
      have hi' : pyIndex (mapSet (.map kvs) tk (.list L')) tk = .ok (.list L') := by
        simp only [mapSet, pyIndex]
        rw [lookupVal_pyInsert_self]
      have hp' : process_test_list L' = .ok (L', []) :=
        process_test_list_stable L L' ns
          (fun t ht => entryOK_of_valOK (hLOK t ht)) hp
      rw [applyTestKey_eval_list tk _ L' L' [] hc' hi' hp']
      have hsame : mapSet (mapSet (.map kvs) tk (.list L')) tk (.list L') =
          mapSet (.map kvs) tk (.list L') := by
        simp only [mapSet]
        congr 1
        exact pyInsert_lookup_self _ _ _
          (valOK_map_iff.mp hok').1 (lookupVal_pyInsert_self _ _ _)
      rw [hsame]

/-- `applyTestKey` self-identity transports along mutations that do not
touch `tk`. -/
lemma applyTestKey_transport (tk : String) (T : List String) (d1 d2 : Val)
    (hT : tk ∉ T) (hk : keepsOutside T d1 d2) (hok2 : valOK d2 = true)
    (h : applyTestKey tk d1 = .ok (d1, [])) :
    applyTestKey tk d2 = .ok (d2, []) := by
  rcases applyTestKey_inv tk d1 d1 [] h with ⟨hc, -, -⟩ | ⟨hc, v, hi, hrest⟩
  · exact applyTestKey_eval_nocontain tk d2 ((hk.1 tk).trans hc)
  · have hc2 : pyContains d2 tk = .ok true := (hk.1 tk).trans hc
    have hi2 : pyIndex d2 tk = .ok v := (hk.2 tk hT).trans hi
    rcases hrest with ⟨hnl, -, -⟩ | ⟨L, L', hv, hp, hd1⟩
    · exact applyTestKey_eval_nonlist tk d2 v hc2 hi2 hnl
    · subst hv
      obtain ⟨kvs1, heq1, hlook1⟩ := pyIndex_ok_map hi
      have hL' : L' = L := by
        have hself : lookupVal (pyInsert kvs1 (Val.str tk) (.list L'))
            (Val.str tk) = some (.list L') := lookupVal_pyInsert_self _ _ _
        have hins : pyInsert kvs1 (Val.str tk) (.list L') = kvs1 := by
          have := hd1
          rw [heq1] at this
          simpa [mapSet] using this.symm
        rw [hins, hlook1] at hself
        have := Option.some.inj hself
        exact (Val.list.inj this).symm
      subst hL'
      obtain ⟨kvs2, rfl, hlook2⟩ := pyIndex_ok_map hi2
      rw [applyTestKey_eval_list tk _ L' L' [] hc2 hi2 hp]
      have hsame : mapSet (.map kvs2) tk (.list L') = .map kvs2 := by
        simp only [mapSet]
        congr 1
        exact pyInsert_lookup_self _ _ _ (valOK_map_iff.mp hok2).1 hlook2
      rw [hsame]

/-! ### `testsBlock`: evaluation, inversion, stability, transport -/

lemma testsBlock_eval_false (d : Val) (t1 : Bool)
    (h1 : pyContains d "tests" = .ok t1)
    (h2 : (if t1 then Except.ok true else pyContains d "data_tests") = .ok false) :
    testsBlock d = .ok (d, []) := by
  simp only [testsBlock, h1, h2, Bool.false_eq_true, if_false]

lemma testsBlock_eval_true (d d1 d2 : Val) (t1 : Bool) (n1 n2 : List Val)
    (h1 : pyContains d "tests" = .ok t1)
    (h2 : (if t1 then Except.ok true else pyContains d "data_tests") = .ok true)
    (h3 : applyTestKey "tests" d = .ok (d1, n1))
    (h4 : applyTestKey "data_tests" d1 = .ok (d2, n2)) :
    testsBlock d = .ok (d2, n1 ++ n2) := by
  simp only [testsBlock, h1, h2, h3, h4, eq_self_iff_true, if_true]

lemma testsBlock_inv (d d' : Val) (ns : List Val)
    (h : testsBlock d = .ok (d', ns)) :
    ∃ t1 g, pyContains d "tests" = .ok t1 ∧
      (if t1 then Except.ok true else pyContains d "data_tests") = .ok g ∧
      ((g = false ∧ d' = d ∧ ns = []) ∨
       (g = true ∧ ∃ d1 n1 n2, applyTestKey "tests" d = .ok (d1, n1) ∧
         applyTestKey "data_tests" d1 = .ok (d', n2) ∧ ns = n1 ++ n2)) := by
  cases hc1 : pyContains d "tests" with
  | error e =>
      simp only [testsBlock, hc1] at h
      exact Except.noConfusion h
  | ok t1 =>
      cases hg : (if t1 then Except.ok true else pyContains d "data_tests") with
      | error e =>
          simp only [testsBlock, hc1, hg] at h
          exact Except.noConfusion h
      | ok g =>
          cases g with
          | false =>
              simp only [testsBlock, hc1, hg, Bool.false_eq_true, if_false,
                Except.ok.injEq, Prod.mk.injEq] at h
              exact ⟨t1, false, rfl, hg, Or.inl ⟨rfl, h.1.symm, h.2.symm⟩⟩
          | true =>
              cases ha1 : applyTestKey "tests" d with
              | error e =>
                  rw [show testsBlock d = .error e from by
                    simp only [testsBlock, hc1, hg, eq_self_iff_true, if_true, ha1]] at h
                  exact Except.noConfusion h
              | ok p1 =>
                  obtain ⟨d1, n1⟩ := p1
                  cases ha2 : applyTestKey "data_tests" d1 with
                  | error e =>
                      rw [show testsBlock d = .error e from by
                        simp only [testsBlock, hc1, hg, eq_self_iff_true, if_true,
                          ha1, ha2]] at h
                      exact Except.noConfusion h
                  | ok p2 =>
                      obtain ⟨d2, n2⟩ := p2
                      rw [testsBlock_eval_true d d1 d2 t1 n1 n2 hc1 hg ha1 ha2] at h
                      simp only [Except.ok.injEq, Prod.mk.injEq] at h
                      exact ⟨t1, true, rfl, hg,
                        Or.inr ⟨rfl, d1, n1, n2, rfl, h.1 ▸ ha2, h.2.symm⟩⟩

/-- Re-running `testsBlock` on its own output is the identity; it mutates
only the `tests` and `data_tests` values. -/
lemma testsBlock_stable (d d' : Val) (ns : List Val)
    (hok : valOK d = true) (h : testsBlock d = .ok (d', ns)) :
    valOK d' = true ∧ keepsOutside ["tests", "data_tests"] d d' ∧
      testsBlock d' = .ok (d', []) := by
  rcases testsBlock_inv d d' ns h with ⟨t1, g, h1, h2, hbranch⟩
  rcases hbranch with ⟨rfl, rfl, rfl⟩ | ⟨rfl, d1, n1, n2, ha1, ha2, rfl⟩
  · exact ⟨hok, keepsOutside_refl _ _, testsBlock_eval_false d' t1 h1 h2⟩
  · obtain ⟨hok1, hkeep1, hself1⟩ := applyTestKey_stable "tests" d d1 n1 hok ha1
    obtain ⟨hok2, hkeep2, hself2⟩ :=
      applyTestKey_stable "data_tests" d1 d' n2 hok1 ha2
    have hkeep : keepsOutside ["tests", "data_tests"] d d' :=
      keepsOutside_trans hkeep1 hkeep2
    have hself1' : applyTestKey "tests" d' = .ok (d', []) :=
      applyTestKey_transport "tests" ["data_tests"] d1 d' (by decide) hkeep2
        hok2 hself1
    refine ⟨hok2, hkeep, ?_⟩
    have h1' : pyContains d' "tests" = .ok t1 := (hkeep.1 "tests").trans h1
    have h2' : (if t1 then Except.ok true else pyContains d' "data_tests") =
        .ok true := by
      cases t1 with
      | true => rfl
      | false =>
          have hdt : pyContains d "data_tests" = .ok true := by simpa using h2
          simpa using (hkeep.1 "data_tests").trans hdt
    have := testsBlock_eval_true d' d' d' t1 [] [] h1' h2' hself1' hself2
    simpa using this

/-- `testsBlock` self-identity transports along mutations not touching the
two check-list keys. -/
lemma testsBlock_transport (T : List String) (d1 d2 : Val)
    (hT1 : "tests" ∉ T) (hT2 : "data_tests" ∉ T)
    (hk : keepsOutside T d1 d2) (hok1 : valOK d1 = true) (hok2 : valOK d2 = true)
    (h : testsBlock d1 = .ok (d1, [])) : testsBlock d2 = .ok (d2, []) := by
  rcases testsBlock_inv d1 d1 [] h with ⟨t1, g, h1, h2, hbranch⟩
  rcases hbranch with ⟨rfl, -, -⟩ | ⟨rfl, dm, n1, n2, ha1, ha2, hnil⟩
  · have h1' : pyContains d2 "tests" = .ok t1 := (hk.1 "tests").trans h1
    cases t1 with
    | true => exact absurd h2 (by simp)
    | false =>
        have hdt : pyContains d1 "data_tests" = .ok false := by simpa using h2
        have hdt' : pyContains d2 "data_tests" = .ok false :=
          (hk.1 "data_tests").trans hdt
        exact testsBlock_eval_false d2 false h1' (by simpa using hdt')
  · obtain ⟨hn1, hn2⟩ := List.append_eq_nil.mp hnil.symm
    subst hn1
    subst hn2
    have hdm : dm = d1 := applyTestKey_nil "tests" d1 dm hok1 ha1
    rw [hdm] at ha1 ha2
    have hself1 := applyTestKey_transport "tests" T d1 d2 hT1 hk hok2 ha1
    have hself2 := applyTestKey_transport "data_tests" T d1 d2 hT2 hk hok2 ha2
    have h1' : pyContains d2 "tests" = .ok t1 := (hk.1 "tests").trans h1
    have h2' : (if t1 then Except.ok true else pyContains d2 "data_tests") =
        .ok true := by
      cases t1 with
      | true => rfl
      | false =>
          have hdt : pyContains d1 "data_tests" = .ok true := by simpa using h2
          simpa using (hk.1 "data_tests").trans hdt
    have := testsBlock_eval_true d2 d2 d2 t1 [] [] h1' h2' hself1 hself2
    simpa using this

/-! ### Scalar values pass through every block untouched (or error) -/

lemma scalar_applyTestKey (tk : String) (k d' : Val) (ns : List Val)
    (hs : scalarKey k = true) (h : applyTestKey tk k = .ok (d', ns)) :
    d' = k ∧ ns = [] := by
  rcases applyTestKey_inv tk k d' ns h with ⟨-, rfl, rfl⟩ | ⟨-, v, hi, -⟩
  · exact ⟨rfl, rfl⟩
  · obtain ⟨kvs, heq, -⟩ := pyIndex_ok_map hi
    rw [heq] at hs
    exact Bool.noConfusion hs

lemma scalar_testsBlock (k d' : Val) (ns : List Val)
    (hs : scalarKey k = true) (h : testsBlock k = .ok (d', ns)) :
    d' = k ∧ ns = [] := by
  rcases testsBlock_inv k d' ns h with ⟨t1, g, h1, h2, hbranch⟩
  rcases hbranch with ⟨-, rfl, rfl⟩ | ⟨-, d1, n1, n2, ha1, ha2, rfl⟩
  · exact ⟨rfl, rfl⟩
  · obtain ⟨rfl, rfl⟩ := scalar_applyTestKey "tests" k d1 n1 hs ha1
    obtain ⟨rfl, rfl⟩ := scalar_applyTestKey "data_tests" d1 d' n2 hs ha2
    exact ⟨rfl, rfl⟩

/-! ### `processEach`: stability and scalar pass-through -/

lemma processEach_stable (f : Val → Except String (Val × List Val))
    (hf : ∀ c c' ns, valOK c = true → f c = .ok (c', ns) →
      valOK c' = true ∧ f c' = .ok (c', []))
    (l l' ns : List Val) (hl : ∀ c ∈ l, valOK c = true)
    (h : processEach f l = .ok (l', ns)) :
    (∀ c ∈ l', valOK c = true) ∧ processEach f l' = .ok (l', []) := by
  induction l generalizing l' ns with
  | nil =>
      simp only [processEach, Except.ok.injEq, Prod.mk.injEq] at h
      rw [← h.1]
      exact ⟨fun c hc => absurd hc (List.not_mem_nil c), rfl⟩
  | cons x rest ih =>
      simp only [processEach] at h
      cases hx : f x with
      | error e => rw [hx] at h; exact Except.noConfusion h
      | ok p =>
          obtain ⟨x', nsx⟩ := p
          rw [hx] at h
          cases hr : processEach f rest with
          | error e => rw [hr] at h; exact Except.noConfusion h
          | ok q =>
              obtain ⟨rest', ns2⟩ := q
              rw [hr] at h
              simp only [Except.ok.injEq, Prod.mk.injEq] at h
              obtain ⟨hl', -⟩ := h
              subst hl'
              obtain ⟨hxOK, hxself⟩ := hf x x' nsx (hl x (by simp)) hx
              obtain ⟨hrOK, hrself⟩ :=
                ih rest' ns2 (fun c hc => hl c (by simp [hc])) hr
              refine ⟨?_, ?_⟩
              · intro c hc
                rcases List.mem_cons.mp hc with rfl | hc'
                · exact hxOK
                · exact hrOK c hc'
              · simp only [processEach, hxself, hrself, List.nil_append]

lemma processEach_scalar (f : Val → Except String (Val × List Val))
    (hf : ∀ k k' ns, scalarKey k = true → f k = .ok (k', ns) → k' = k ∧ ns = [])
    (l l' ns : List Val) (hl : ∀ k ∈ l, scalarKey k = true)
    (h : processEach f l = .ok (l', ns)) : l' = l ∧ ns = [] := by
  induction l generalizing l' ns with
  | nil =>
      simp only [processEach, Except.ok.injEq, Prod.mk.injEq] at h
      exact ⟨h.1.symm, h.2.symm⟩
  | cons x rest ih =>
      simp only [processEach] at h
      cases hx : f x with
      | error e => rw [hx] at h; exact Except.noConfusion h
      | ok p =>
          obtain ⟨x', nsx⟩ := p
          rw [hx] at h
          cases hr : processEach f rest with
          | error e => rw [hr] at h; exact Except.noConfusion h
          | ok q =>
              obtain ⟨rest', ns2⟩ := q
              rw [hr] at h
              simp only [Except.ok.injEq, Prod.mk.injEq] at h
              obtain ⟨rfl, rfl⟩ := hf x x' nsx (hl x (by simp)) hx
              obtain ⟨rfl, rfl⟩ := ih rest' ns2 (fun k hk => hl k (by simp [hk])) hr
              exact ⟨h.1.symm, h.2.symm⟩

/-! ### `columnsBlock`: evaluation, inversion, stability, transport -/

lemma columnsBlock_eval_nocontain (d : Val)
    (h : pyContains d "columns" = .ok false) : columnsBlock d = .ok (d, []) := by
  simp only [columnsBlock, h]

lemma columnsBlock_eval_nonlist (d v : Val)
    (h1 : pyContains d "columns" = .ok true) (h2 : pyIndex d "columns" = .ok v)
    (h3 : ∀ L, v ≠ Val.list L) : columnsBlock d = .ok (d, []) := by
  cases v with
  | list L => exact absurd rfl (h3 L)
  | str s => simp only [columnsBlock, h1, h2]
  | int n => simp only [columnsBlock, h1, h2]
  | bool b => simp only [columnsBlock, h1, h2]
  | null => simp only [columnsBlock, h1, h2]
  | map kvs => simp only [columnsBlock, h1, h2]

lemma columnsBlock_eval_list (d : Val) (L L' ns : List Val)
    (h1 : pyContains d "columns" = .ok true)
    (h2 : pyIndex d "columns" = .ok (.list L))
    (h3 : processEach testsBlock L = .ok (L', ns)) :
    columnsBlock d = .ok (mapSet d "columns" (.list L'), ns) := by
  simp only [columnsBlock, h1, h2, h3]

lemma columnsBlock_inv (d d' : Val) (ns : List Val)
    (h : columnsBlock d = .ok (d', ns)) :
    (pyContains d "columns" = .ok false ∧ d' = d ∧ ns = []) ∨
    (pyContains d "columns" = .ok true ∧ ∃ v, pyIndex d "columns" = .ok v ∧
      (((∀ L, v ≠ Val.list L) ∧ d' = d ∧ ns = []) ∨
       (∃ L L', v = Val.list L ∧ processEach testsBlock L = .ok (L', ns) ∧
         d' = mapSet d "columns" (.list L')))) := by
  cases hc : pyContains d "columns" with
  | error e =>
      simp only [columnsBlock, hc] at h
      exact Except.noConfusion h
  | ok c =>
      cases c with
      | false =>
          simp only [columnsBlock, hc, Except.ok.injEq, Prod.mk.injEq] at h
          exact Or.inl ⟨rfl, h.1.symm, h.2.symm⟩
      | true =>
          cases hi : pyIndex d "columns" with
          | error e =>
              simp only [columnsBlock, hc, hi] at h
              exact Except.noConfusion h
          | ok v =>
              refine Or.inr ⟨rfl, v, rfl, ?_⟩
              cases v with
              | list L =>
                  cases hp : processEach testsBlock L with
                  | error e =>
                      simp only [columnsBlock, hc, hi, hp] at h
                      exact Except.noConfusion h
                  | ok q =>
                      obtain ⟨L', ns'⟩ := q
                      simp only [columnsBlock, hc, hi, hp, Except.ok.injEq,
                        Prod.mk.injEq] at h
                      exact Or.inr ⟨L, L', rfl, by rw [hp, h.2], h.1.symm⟩
              | str s =>
                  simp only [columnsBlock, hc, hi, Except.ok.injEq, Prod.mk.injEq] at h
                  exact Or.inl ⟨fun L hL => Val.noConfusion hL, h.1.symm, h.2.symm⟩
              | int n =>
                  simp only [columnsBlock, hc, hi, Except.ok.injEq, Prod.mk.injEq] at h
                  exact Or.inl ⟨fun L hL => Val.noConfusion hL, h.1.symm, h.2.symm⟩
              | bool b =>
                  simp only [columnsBlock, hc, hi, Except.ok.injEq, Prod.mk.injEq] at h
                  exact Or.inl ⟨fun L hL => Val.noConfusion hL, h.1.symm, h.2.symm⟩
              | null =>
                  simp only [columnsBlock, hc, hi, Except.ok.injEq, Prod.mk.injEq] at h
                  exact Or.inl ⟨fun L hL => Val.noConfusion hL, h.1.symm, h.2.symm⟩
              | map kvs =>
                  simp only [columnsBlock, hc, hi, Except.ok.injEq, Prod.mk.injEq] at h
                  exact Or.inl ⟨fun L hL => Val.noConfusion hL, h.1.symm, h.2.symm⟩

/-- Re-running `columnsBlock` on its own output is the identity; the
mutation only touches the value under `columns`. -/
lemma columnsBlock_stable (d d' : Val) (ns : List Val)
    (hok : valOK d = true) (h : columnsBlock d = .ok (d', ns)) :
    valOK d' = true ∧ keepsOutside ["columns"] d d' ∧
      columnsBlock d' = .ok (d', []) := by
  rcases columnsBlock_inv d d' ns h with ⟨hc, rfl, rfl⟩ | ⟨hc, v, hi, hrest⟩
  · exact ⟨hok, keepsOutside_refl _ _, columnsBlock_eval_nocontain d' hc⟩
  · rcases hrest with ⟨hnl, rfl, rfl⟩ | ⟨L, L', rfl, hp, rfl⟩
    · exact ⟨hok, keepsOutside_refl _ _,
        columnsBlock_eval_nonlist d' v hc hi hnl⟩
    · obtain ⟨kvs, rfl, hlook⟩ := pyIndex_ok_map hi
      have hmem : Val.str "columns" ∈ mapKeys kvs := pyContains_map_true hc
      have hLOK : ∀ c ∈ L, valOK c = true :=
        valOK_list_iff.mp (valOK_lookup hok hlook)
      obtain ⟨hL'OK, hp'⟩ := processEach_stable testsBlock
        (fun c c' ns1 hokc hcc =>
          ⟨(testsBlock_stable c c' ns1 hokc hcc).1,
           (testsBlock_stable c c' ns1 hokc hcc).2.2⟩)
        L L' ns hLOK hp
      have hok' : valOK (mapSet (.map kvs) "columns" (.list L')) = true :=
        valOK_mapSet _ "columns" _ hok (valOK_list_iff.mpr hL'OK)
      have hkeeps := keepsOutside_mapSet kvs "columns" (.list L') hmem
      refine ⟨hok', hkeeps, ?_⟩
      have hc' : pyContains (mapSet (.map kvs) "columns" (.list L')) "columns" =
          .ok true := (hkeeps.1 "columns").trans hc
      have hi' : pyIndex (mapSet (.map kvs) "columns" (.list L')) "columns" =
          .ok (.list L') := by
        simp only [mapSet, pyIndex]
        rw [lookupVal_pyInsert_self]
      rw [columnsBlock_eval_list _ L' L' [] hc' hi' hp']
      have hsame : mapSet (mapSet (.map kvs) "columns" (.list L')) "columns"
          (.list L') = mapSet (.map kvs) "columns" (.list L') := by
        simp only [mapSet]
        congr 1
        exact pyInsert_lookup_self _ _ _
          (valOK_map_iff.mp hok').1 (lookupVal_pyInsert_self _ _ _)
      rw [hsame]

/-- `columnsBlock` self-identity transports along mutations that do not
touch `columns`. -/
lemma columnsBlock_transport (T : List String) (d1 d2 : Val)
    (hT : "columns" ∉ T) (hk : keepsOutside T d1 d2) (hok2 : valOK d2 = true)
    (h : columnsBlock d1 = .ok (d1, [])) : columnsBlock d2 = .ok (d2, []) := by
  rcases columnsBlock_inv d1 d1 [] h with ⟨hc, -, -⟩ | ⟨hc, v, hi, hrest⟩
  · exact columnsBlock_eval_nocontain d2 ((hk.1 "columns").trans hc)
  · have hc2 : pyContains d2 "columns" = .ok true := (hk.1 "columns").trans hc
    have hi2 : pyIndex d2 "columns" = .ok v := (hk.2 "columns" hT).trans hi
    rcases hrest with ⟨hnl, -, -⟩ | ⟨L, L', hv, hp, hd1⟩
    · exact columnsBlock_eval_nonlist d2 v hc2 hi2 hnl
    · subst hv
      obtain ⟨kvs1, heq1, hlook1⟩ := pyIndex_ok_map hi
      have hL' : L' = L := by
        have hself : lookupVal (pyInsert kvs1 (Val.str "columns") (.list L'))
            (Val.str "columns") = some (.list L') := lookupVal_pyInsert_self _ _ _
        have hins : pyInsert kvs1 (Val.str "columns") (.list L') = kvs1 := by
          have := hd1
          rw [heq1] at this
          simpa [mapSet] using this.symm
        rw [hins, hlook1] at hself
        have := Option.some.inj hself
        exact (Val.list.inj this).symm
      subst hL'
      obtain ⟨kvs2, rfl, hlook2⟩ := pyIndex_ok_map hi2
      rw [columnsBlock_eval_list _ L' L' [] hc2 hi2 hp]
      have hsame : mapSet (.map kvs2) "columns" (.list L') = .map kvs2 := by
        simp only [mapSet]
        congr 1
        exact pyInsert_lookup_self _ _ _ (valOK_map_iff.mp hok2).1 hlook2
      rw [hsame]

lemma scalar_columnsBlock (k k' : Val) (ns : List Val)
    (hs : scalarKey k = true) (h : columnsBlock k = .ok (k', ns)) :
    k' = k ∧ ns = [] := by
  rcases columnsBlock_inv k k' ns h with ⟨-, rfl, rfl⟩ | ⟨-, v, hi, -⟩
  · exact ⟨rfl, rfl⟩
  · obtain ⟨kvs, heq, -⟩ := pyIndex_ok_map hi
    rw [heq] at hs
    exact Bool.noConfusion hs

/-! ### `processTable`: stability and scalar pass-through -/

lemma processTable_stable (t t' : Val) (ns : List Val)
    (hok : valOK t = true) (h : processTable t = .ok (t', ns)) :
    valOK t' = true ∧ keepsOutside ["tests", "data_tests", "columns"] t t' ∧
      processTable t' = .ok (t', []) := by
  cases htb : testsBlock t with
  | error e => simp only [processTable, htb] at h; exact Except.noConfusion h
  | ok p =>
      obtain ⟨t1, n1⟩ := p
      cases hcb : columnsBlock t1 with
      | error e =>
          simp only [processTable, htb, hcb] at h
          exact Except.noConfusion h
      | ok q =>
          obtain ⟨t2, n2⟩ := q
          simp only [processTable, htb, hcb, Except.ok.injEq, Prod.mk.injEq] at h
          obtain ⟨rfl, -⟩ := h
          obtain ⟨hok1, hkeep1, hself1⟩ := testsBlock_stable t t1 n1 hok htb
          obtain ⟨hok2, hkeep2, hself2⟩ := columnsBlock_stable t1 t2 n2 hok1 hcb
          have hself1' : testsBlock t2 = .ok (t2, []) :=
            testsBlock_transport ["columns"] t1 t2 (by decide) (by decide)
              hkeep2 hok1 hok2 hself1
          refine ⟨hok2, keepsOutside_trans hkeep1 hkeep2, ?_⟩
          simp only [processTable, hself1', hself2, List.nil_append]

lemma scalar_processTable (k k' : Val) (ns : List Val)
    (hs : scalarKey k = true) (h : processTable k = .ok (k', ns)) :
    k' = k ∧ ns = [] := by
  cases htb : testsBlock k with
  | error e => simp only [processTable, htb] at h; exact Except.noConfusion h
  | ok p =>
      obtain ⟨t1, n1⟩ := p
      obtain ⟨heq1, rfl⟩ := scalar_testsBlock k t1 n1 hs htb
      rw [heq1] at htb
      cases hcb : columnsBlock k with
      | error e =>
          simp only [processTable, htb, hcb] at h
          exact Except.noConfusion h
      | ok q =>
          obtain ⟨t2, n2⟩ := q
          obtain ⟨heq2, rfl⟩ := scalar_columnsBlock k t2 n2 hs hcb
          rw [heq2] at hcb
          simp only [processTable, htb, hcb, Except.ok.injEq, Prod.mk.injEq,
            List.nil_append] at h
          exact ⟨h.1.symm, h.2.symm⟩

/-! ### `iterUpdate`: stability over well-formed containers -/

lemma iterUpdate_stable (f : Val → Except String (Val × List Val))
    (hf : ∀ c c' ns, valOK c = true → f c = .ok (c', ns) →
      valOK c' = true ∧ f c' = .ok (c', []))
    (hfs : ∀ k k' ns, scalarKey k = true → f k = .ok (k', ns) → k' = k ∧ ns = [])
    (v v' : Val) (ns : List Val) (hok : valOK v = true)
    (h : iterUpdate v f = .ok (v', ns)) :
    valOK v' = true ∧ iterUpdate v' f = .ok (v', []) := by
  cases v with
  | list l =>
      simp only [iterUpdate] at h
      cases hp : processEach f l with
      | error e => rw [hp] at h; exact Except.noConfusion h
      | ok q =>
          obtain ⟨l', ns0⟩ := q
          rw [hp] at h
          simp only [Except.ok.injEq, Prod.mk.injEq] at h
          obtain ⟨hv', -⟩ := h
          obtain ⟨hl'OK, hself⟩ :=
            processEach_stable f hf l l' ns0 (valOK_list_iff.mp hok) hp
          subst hv'
          exact ⟨valOK_list_iff.mpr hl'OK, by simp only [iterUpdate, hself]⟩
  | map kvs =>
      simp only [iterUpdate] at h
      cases hp : processEach f (mapKeys kvs) with
      | error e => rw [hp] at h; exact Except.noConfusion h
      | ok q =>
          obtain ⟨ks, ns0⟩ := q
          rw [hp] at h
          simp only [Except.ok.injEq, Prod.mk.injEq] at h
          obtain ⟨hv', -⟩ := h
          have hkeys : ∀ k ∈ mapKeys kvs, scalarKey k = true := by
            intro k hk
            obtain ⟨kv, hkv, rfl⟩ := List.mem_map.mp hk
            exact (valOK_map_iff.mp hok).2.1 kv hkv
          obtain ⟨rfl, rfl⟩ :=
            processEach_scalar f hfs (mapKeys kvs) ks ns0 hkeys hp
          have hzip : (mapKeys kvs).zip (kvs.map Prod.snd) = kvs := by
            simp only [mapKeys]
            exact zip_fst_snd kvs
          rw [hzip] at hv'
          subst hv'
          refine ⟨hok, ?_⟩
          simp only [iterUpdate, hp, hzip]
  | str s =>
      simp only [iterUpdate] at h
      cases hp : processEach f (s.data.map (fun c => Val.str (String.singleton c))) with
      | error e => rw [hp] at h; exact Except.noConfusion h
      | ok q =>
          obtain ⟨l0, ns0⟩ := q
          rw [hp] at h
          simp only [Except.ok.injEq, Prod.mk.injEq] at h
          obtain ⟨hv', -⟩ := h
          have hchars : ∀ k ∈ s.data.map (fun c => Val.str (String.singleton c)),
              scalarKey k = true := by
            intro k hk
            obtain ⟨c, -, rfl⟩ := List.mem_map.mp hk
            rfl
          obtain ⟨rfl, rfl⟩ := processEach_scalar f hfs _ l0 ns0 hchars hp
          subst hv'
          refine ⟨hok, ?_⟩
          simp only [iterUpdate, hp]
  | int n => exact Except.noConfusion h
  | bool b => exact Except.noConfusion h
  | null => exact Except.noConfusion h

/-! ### `tablesBlock`: evaluation, inversion, stability, transport -/

lemma tablesBlock_eval_nocontain (d : Val)
    (h : pyContains d "tables" = .ok false) : tablesBlock d = .ok (d, []) := by
  simp only [tablesBlock, h]

lemma tablesBlock_eval_iter (d v v' : Val) (ns : List Val)
    (h1 : pyContains d "tables" = .ok true) (h2 : pyIndex d "tables" = .ok v)
    (h3 : iterUpdate v processTable = .ok (v', ns)) :
    tablesBlock d = .ok (mapSet d "tables" v', ns) := by
  simp only [tablesBlock, h1, h2, h3]

lemma tablesBlock_inv (d d' : Val) (ns : List Val)
    (h : tablesBlock d = .ok (d', ns)) :
    (pyContains d "tables" = .ok false ∧ d' = d ∧ ns = []) ∨
    (pyContains d "tables" = .ok true ∧ ∃ v v', pyIndex d "tables" = .ok v ∧
      iterUpdate v processTable = .ok (v', ns) ∧ d' = mapSet d "tables" v') := by
  cases hc : pyContains d "tables" with
  | error e => simp only [tablesBlock, hc] at h; exact Except.noConfusion h
  | ok c =>
      cases c with
      | false =>
          simp only [tablesBlock, hc, Except.ok.injEq, Prod.mk.injEq] at h
          exact Or.inl ⟨rfl, h.1.symm, h.2.symm⟩
      | true =>
          cases hi : pyIndex d "tables" with
          | error e =>
              simp only [tablesBlock, hc, hi] at h
              exact Except.noConfusion h
          | ok v =>
              cases hu : iterUpdate v processTable with
              | error e =>
                  simp only [tablesBlock, hc, hi, hu] at h
                  exact Except.noConfusion h
              | ok q =>
                  obtain ⟨v', ns0⟩ := q
                  simp only [tablesBlock, hc, hi, hu, Except.ok.injEq,
                    Prod.mk.injEq] at h
                  exact Or.inr ⟨rfl, v, v', rfl, by rw [hu, h.2], h.1.symm⟩

/-- Re-running `tablesBlock` on its own output is the identity; the
mutation only touches the value under `tables`. -/
lemma tablesBlock_stable (d d' : Val) (ns : List Val)
    (hok : valOK d = true) (h : tablesBlock d = .ok (d', ns)) :
    valOK d' = true ∧ keepsOutside ["tables"] d d' ∧
      tablesBlock d' = .ok (d', []) := by
  rcases tablesBlock_inv d d' ns h with ⟨hc, rfl, rfl⟩ | ⟨hc, v, v', hi, hu, rfl⟩
  · exact ⟨hok, keepsOutside_refl _ _, tablesBlock_eval_nocontain d' hc⟩
  · obtain ⟨kvs, rfl, hlook⟩ := pyIndex_ok_map hi
    have hmem : Val.str "tables" ∈ mapKeys kvs := pyContains_map_true hc
    have hvOK : valOK v = true := valOK_lookup hok hlook
    obtain ⟨hv'OK, hself⟩ := iterUpdate_stable processTable
      (fun c c' ns1 hokc hcc =>
        ⟨(processTable_stable c c' ns1 hokc hcc).1,
         (processTable_stable c c' ns1 hokc hcc).2.2⟩)
      (fun k k' ns1 hs hk => scalar_processTable k k' ns1 hs hk)
      v v' ns hvOK hu
    have hok' : valOK (mapSet (.map kvs) "tables" v') = true :=
      valOK_mapSet _ "tables" v' hok hv'OK
    have hkeeps := keepsOutside_mapSet kvs "tables" v' hmem
    refine ⟨hok', hkeeps, ?_⟩
    have hc' : pyContains (mapSet (.map kvs) "tables" v') "tables" = .ok true :=
      (hkeeps.1 "tables").trans hc
    have hi' : pyIndex (mapSet (.map kvs) "tables" v') "tables" = .ok v' := by
      simp only [mapSet, pyIndex]
      rw [lookupVal_pyInsert_self]
    rw [tablesBlock_eval_iter _ v' v' [] hc' hi' hself]
    have hsame : mapSet (mapSet (.map kvs) "tables" v') "tables" v' =
        mapSet (.map kvs) "tables" v' := by
      simp only [mapSet]
      congr 1
      exact pyInsert_lookup_self _ _ _
        (valOK_map_iff.mp hok').1 (lookupVal_pyInsert_self _ _ _)
    rw [hsame]

/-- `tablesBlock` self-identity transports along mutations that do not
touch `tables`. -/
lemma tablesBlock_transport (T : List String) (d1 d2 : Val)
    (hT : "tables" ∉ T) (hk : keepsOutside T d1 d2) (hok2 : valOK d2 = true)
    (h : tablesBlock d1 = .ok (d1, [])) : tablesBlock d2 = .ok (d2, []) := by
  rcases tablesBlock_inv d1 d1 [] h with ⟨hc, -, -⟩ | ⟨hc, v, v', hi, hu, hd1⟩
  · exact tablesBlock_eval_nocontain d2 ((hk.1 "tables").trans hc)
  · have hc2 : pyContains d2 "tables" = .ok true := (hk.1 "tables").trans hc
    have hi2 : pyIndex d2 "tables" = .ok v := (hk.2 "tables" hT).trans hi
    obtain ⟨kvs1, heq1, hlook1⟩ := pyIndex_ok_map hi
    have hv' : v' = v := by
      have hself : lookupVal (pyInsert kvs1 (Val.str "tables") v')
          (Val.str "tables") = some v' := lookupVal_pyInsert_self _ _ _
      have hins : pyInsert kvs1 (Val.str "tables") v' = kvs1 := by
        have := hd1
        rw [heq1] at this
        simpa [mapSet] using this.symm
      rw [hins, hlook1] at hself
      exact (Option.some.inj hself).symm
    rw [hv'] at hu
    obtain ⟨kvs2, rfl, hlook2⟩ := pyIndex_ok_map hi2
    rw [tablesBlock_eval_iter _ v v [] hc2 hi2 hu]
    have hsame : mapSet (.map kvs2) "tables" v = .map kvs2 := by
      simp only [mapSet]
      congr 1
      exact pyInsert_lookup_self _ _ _ (valOK_map_iff.mp hok2).1 hlook2
    rw [hsame]

lemma scalar_tablesBlock (k k' : Val) (ns : List Val)
    (hs : scalarKey k = true) (h : tablesBlock k = .ok (k', ns)) :
    k' = k ∧ ns = [] := by
  rcases tablesBlock_inv k k' ns h with ⟨-, rfl, rfl⟩ | ⟨-, v, v', hi, -, -⟩
  · exact ⟨rfl, rfl⟩
  · obtain ⟨kvs, heq, -⟩ := pyIndex_ok_map hi
    rw [heq] at hs
    exact Bool.noConfusion hs

/-! ### `processResource`: stability and scalar pass-through -/

lemma processResource_stable (b : Bool) (r r' : Val) (ns : List Val)
    (hok : valOK r = true) (h : processResource b r = .ok (r', ns)) :
    valOK r' = true ∧
      keepsOutside ["tests", "data_tests", "columns", "tables"] r r' ∧
      processResource b r' = .ok (r', []) := by
  cases htb : testsBlock r with
  | error e => simp only [processResource, htb] at h; exact Except.noConfusion h
  | ok p =>
      obtain ⟨r1, n1⟩ := p
      cases hcb : columnsBlock r1 with
      | error e =>
          simp only [processResource, htb, hcb] at h
          exact Except.noConfusion h
      | ok q =>
          obtain ⟨r2, n2⟩ := q
          obtain ⟨hok1, hkeep1, hself1⟩ := testsBlock_stable r r1 n1 hok htb
          obtain ⟨hok2, hkeep2, hself2⟩ := columnsBlock_stable r1 r2 n2 hok1 hcb
          have htb2 : testsBlock r2 = .ok (r2, []) :=
            testsBlock_transport ["columns"] r1 r2 (by decide) (by decide)
              hkeep2 hok1 hok2 hself1
          cases b with
          | false =>
              simp only [processResource, htb, hcb, Bool.false_eq_true, if_false,
                Except.ok.injEq, Prod.mk.injEq] at h
              obtain ⟨rfl, -⟩ := h
              refine ⟨hok2, ?_, ?_⟩
              · exact keepsOutside_mono (by decide)
                  (keepsOutside_trans hkeep1 hkeep2)
              · simp only [processResource, htb2, hself2, Bool.false_eq_true,
                  if_false, List.nil_append]
          | true =>
              cases htab : tablesBlock r2 with
              | error e =>
                  simp only [processResource, htb, hcb, htab, eq_self_iff_true,
                    if_true] at h
                  exact Except.noConfusion h
              | ok w =>
                  obtain ⟨r3, n3⟩ := w
                  simp only [processResource, htb, hcb, htab, eq_self_iff_true,
                    if_true, Except.ok.injEq, Prod.mk.injEq] at h
                  obtain ⟨rfl, -⟩ := h
                  obtain ⟨hok3, hkeep3, hself3⟩ :=
                    tablesBlock_stable r2 r3 n3 hok2 htab
                  have htb3 : testsBlock r3 = .ok (r3, []) :=
                    testsBlock_transport ["tables"] r2 r3 (by decide) (by decide)
                      hkeep3 hok2 hok3 htb2
                  have hcb3 : columnsBlock r3 = .ok (r3, []) :=
                    columnsBlock_transport ["tables"] r2 r3 (by decide)
                      hkeep3 hok3 hself2
                  refine ⟨hok3, ?_, ?_⟩
                  · exact keepsOutside_mono (by decide)
                      (keepsOutside_trans (keepsOutside_trans hkeep1 hkeep2) hkeep3)
                  · simp only [processResource, htb3, hcb3, hself3,
                      eq_self_iff_true, if_true, List.nil_append]

lemma scalar_processResource (b : Bool) (k k' : Val) (ns : List Val)
    (hs : scalarKey k = true) (h : processResource b k = .ok (k', ns)) :
    k' = k ∧ ns = [] := by
  cases htb : testsBlock k with
  | error e => simp only [processResource, htb] at h; exact Except.noConfusion h
  | ok p =>
      obtain ⟨r1, n1⟩ := p
      obtain ⟨heq1, rfl⟩ := scalar_testsBlock k r1 n1 hs htb
      rw [heq1] at htb
      cases hcb : columnsBlock k with
      | error e =>
          simp only [processResource, htb, hcb] at h
          exact Except.noConfusion h
      | ok q =>
          obtain ⟨r2, n2⟩ := q
          obtain ⟨heq2, rfl⟩ := scalar_columnsBlock k r2 n2 hs hcb
          rw [heq2] at hcb
          cases b with
          | false =>
              simp only [processResource, htb, hcb, Bool.false_eq_true, if_false,
                Except.ok.injEq, Prod.mk.injEq, List.nil_append] at h
              exact ⟨h.1.symm, h.2.symm⟩
          | true =>
              cases htab : tablesBlock k with
              | error e =>
                  simp only [processResource, htb, hcb, htab, eq_self_iff_true,
                    if_true] at h
                  exact Except.noConfusion h
              | ok w =>
                  obtain ⟨r3, n3⟩ := w
                  obtain ⟨heq3, rfl⟩ := scalar_tablesBlock k r3 n3 hs htab
                  rw [heq3] at htab
                  simp only [processResource, htb, hcb, htab, eq_self_iff_true,
                    if_true, Except.ok.injEq, Prod.mk.injEq, List.nil_append] at h
                  exact ⟨h.1.symm, h.2.symm⟩

/-! ### `processResourceType`: evaluation, inversion, stability, transport -/

lemma processResourceType_eval_nocontain (rt : String) (c : Val)
    (h : pyContains c rt = .ok false) : processResourceType rt c = .ok (c, []) := by
  simp only [processResourceType, h]

lemma processResourceType_eval_iter (rt : String) (c v v' : Val) (ns : List Val)
    (h1 : pyContains c rt = .ok true) (h2 : pyIndex c rt = .ok v)
    (h3 : iterUpdate v (processResource (rt == "sources")) = .ok (v', ns)) :
    processResourceType rt c = .ok (mapSet c rt v', ns) := by
  simp only [processResourceType, h1, h2, h3]

lemma processResourceType_inv (rt : String) (c c' : Val) (ns : List Val)
    (h : processResourceType rt c = .ok (c', ns)) :
    (pyContains c rt = .ok false ∧ c' = c ∧ ns = []) ∨
    (pyContains c rt = .ok true ∧ ∃ v v', pyIndex c rt = .ok v ∧
      iterUpdate v (processResource (rt == "sources")) = .ok (v', ns) ∧
      c' = mapSet c rt v') := by
  cases hc : pyContains c rt with
  | error e => simp only [processResourceType, hc] at h; exact Except.noConfusion h
  | ok g =>
      cases g with
      | false =>
          simp only [processResourceType, hc, Except.ok.injEq, Prod.mk.injEq] at h
          exact Or.inl ⟨rfl, h.1.symm, h.2.symm⟩
      | true =>
          cases hi : pyIndex c rt with
          | error e =>
              simp only [processResourceType, hc, hi] at h
              exact Except.noConfusion h
          | ok v =>
              cases hu : iterUpdate v (processResource (rt == "sources")) with
              | error e =>
                  simp only [processResourceType, hc, hi, hu] at h
                  exact Except.noConfusion h
              | ok q =>
                  obtain ⟨v', ns0⟩ := q
                  simp only [processResourceType, hc, hi, hu, Except.ok.injEq,
                    Prod.mk.injEq] at h
                  exact Or.inr ⟨rfl, v, v', rfl, by rw [hu, h.2], h.1.symm⟩

/-- Re-running one resource-collection pass on its own output is the
identity; the mutation only touches the value under that collection key. -/
lemma processResourceType_stable (rt : String) (c c' : Val) (ns : List Val)
    (hok : valOK c = true) (h : processResourceType rt c = .ok (c', ns)) :
    valOK c' = true ∧ keepsOutside [rt] c c' ∧
      processResourceType rt c' = .ok (c', []) := by
  rcases processResourceType_inv rt c c' ns h with
    ⟨hc, rfl, rfl⟩ | ⟨hc, v, v', hi, hu, rfl⟩
  · exact ⟨hok, keepsOutside_refl _ _, processResourceType_eval_nocontain rt c' hc⟩
  · obtain ⟨kvs, rfl, hlook⟩ := pyIndex_ok_map hi
    have hmem : Val.str rt ∈ mapKeys kvs := pyContains_map_true hc
    have hvOK : valOK v = true := valOK_lookup hok hlook
    obtain ⟨hv'OK, hself⟩ := iterUpdate_stable (processResource (rt == "sources"))
      (fun c1 c1' ns1 hokc hcc =>
        ⟨(processResource_stable (rt == "sources") c1 c1' ns1 hokc hcc).1,
         (processResource_stable (rt == "sources") c1 c1' ns1 hokc hcc).2.2⟩)
      (fun k k' ns1 hs hk => scalar_processResource (rt == "sources") k k' ns1 hs hk)
      v v' ns hvOK hu
    have hok' : valOK (mapSet (.map kvs) rt v') = true :=
      valOK_mapSet _ rt v' hok hv'OK
    have hkeeps := keepsOutside_mapSet kvs rt v' hmem
    refine ⟨hok', hkeeps, ?_⟩
    have hc' : pyContains (mapSet (.map kvs) rt v') rt = .ok true :=
      (hkeeps.1 rt).trans hc
    have hi' : pyIndex (mapSet (.map kvs) rt v') rt = .ok v' := by
      simp only [mapSet, pyIndex]
      rw [lookupVal_pyInsert_self]
    rw [processResourceType_eval_iter rt _ v' v' [] hc' hi' hself]
    have hsame : mapSet (mapSet (.map kvs) rt v') rt v' =
        mapSet (.map kvs) rt v' := by
      simp only [mapSet]
      congr 1
      exact pyInsert_lookup_self _ _ _
        (valOK_map_iff.mp hok').1 (lookupVal_pyInsert_self _ _ _)
    rw [hsame]

/-- Resource-collection self-identity transports along mutations that do
not touch that collection key. -/
lemma processResourceType_transport (rt : String) (T : List String) (d1 d2 : Val)
    (hT : rt ∉ T) (hk : keepsOutside T d1 d2) (hok2 : valOK d2 = true)
    (h : processResourceType rt d1 = .ok (d1, [])) :
    processResourceType rt d2 = .ok (d2, []) := by
  rcases processResourceType_inv rt d1 d1 [] h with
    ⟨hc, -, -⟩ | ⟨hc, v, v', hi, hu, hd1⟩
  · exact processResourceType_eval_nocontain rt d2 ((hk.1 rt).trans hc)
  · have hc2 : pyContains d2 rt = .ok true := (hk.1 rt).trans hc
    have hi2 : pyIndex d2 rt = .ok v := (hk.2 rt hT).trans hi
    obtain ⟨kvs1, heq1, hlook1⟩ := pyIndex_ok_map hi
    have hv' : v' = v := by
      have hself : lookupVal (pyInsert kvs1 (Val.str rt) v')
          (Val.str rt) = some v' := lookupVal_pyInsert_self _ _ _
      have hins : pyInsert kvs1 (Val.str rt) v' = kvs1 := by
        have := hd1
        rw [heq1] at this
        simpa [mapSet] using this.symm
      rw [hins, hlook1] at hself
      exact (Option.some.inj hself).symm
    rw [hv'] at hu
    obtain ⟨kvs2, rfl, hlook2⟩ := pyIndex_ok_map hi2
    rw [processResourceType_eval_iter rt _ v v [] hc2 hi2 hu]
    have hsame : mapSet (.map kvs2) rt v = .map kvs2 := by
      simp only [mapSet]
      congr 1
      exact pyInsert_lookup_self _ _ _ (valOK_map_iff.mp hok2).1 hlook2
    rw [hsame]

/-! ### `processAllTypes`: stability over the whole collection-key fold -/

lemma processAllTypes_stable (rts : List String) (c c' : Val) (ns : List Val)
    (hnd : rts.Nodup) (hok : valOK c = true)
    (h : processAllTypes rts c = .ok (c', ns)) :
    valOK c' = true ∧ keepsOutside rts c c' ∧
      processAllTypes rts c' = .ok (c', []) := by
  induction rts generalizing c c' ns with
  | nil =>
      simp only [processAllTypes, Except.ok.injEq, Prod.mk.injEq] at h
      obtain ⟨rfl, -⟩ := h
      exact ⟨hok, keepsOutside_refl _ _, rfl⟩
  | cons rt rest ih =>
      obtain ⟨hrt, hndrest⟩ := List.nodup_cons.mp hnd
      cases h1 : processResourceType rt c with
      | error e =>
          simp only [processAllTypes, h1] at h
          exact Except.noConfusion h
      | ok p =>
          obtain ⟨c1, ns1⟩ := p
          simp only [processAllTypes, h1] at h
          cases h2 : processAllTypes rest c1 with
          | error e => rw [h2] at h; exact Except.noConfusion h
          | ok q =>
              obtain ⟨c2, ns2⟩ := q
              rw [h2] at h
              simp only [Except.ok.injEq, Prod.mk.injEq] at h
              obtain ⟨rfl, -⟩ := h
              obtain ⟨hok1, hkeep1, hself1⟩ :=
                processResourceType_stable rt c c1 ns1 hok h1
              obtain ⟨hok2, hkeep2, hself2⟩ := ih c1 c2 ns2 hndrest hok1 h2
              have hself1' : processResourceType rt c2 = .ok (c2, []) :=
                processResourceType_transport rt rest c1 c2 hrt hkeep2 hok2 hself1
              refine ⟨hok2, keepsOutside_trans hkeep1 hkeep2, ?_⟩
              simp only [processAllTypes, hself1', hself2, List.nil_append]

/-! ### C4: idempotence of the document migration -/

/-- C4: the document migration is idempotent — for every document tree
(mappings having distinct, scalar keys, as every tree loaded from a
Python dict does), running `process_yaml_content` a second time on the
tree produced by the first run returns that tree unchanged and records no
migrated names; and any check-list declaration already carrying an
`arguments` key is passed through by the check-list worker completely
unchanged and contributes nothing to the recorded names. -/
theorem migration_idempotent :
    (∀ (doc doc' : Val) (names : List Val),
       valOK doc = true →
       process_yaml_content doc = .ok (doc', names) →
       process_yaml_content doc' = .ok (doc', [])) ∧
    (∀ (kvs : List (Val × Val)) (rest out names : List Val),
       (Val.str "arguments") ∈ mapKeys kvs →
       process_test_list (.map kvs :: rest) = .ok (out, names) →
       ∃ out', out = .map kvs :: out' ∧
         process_test_list rest = .ok (out', names)) := by
  constructor
  · intro doc doc' names hok h
    exact (processAllTypes_stable resource_types doc doc' names
      (by decide) hok h).2.2
  · intro kvs rest out names hmem h
    have hstep : process_step (.map kvs) = .ok (.map kvs, []) := by
      by_cases hlen : kvs.length = 1
      · cases kvs with
        | nil => simp at hlen
        | cons p r0 =>
            cases r0 with
            | cons q r => simp at hlen
            | nil =>
                obtain ⟨k, cfg⟩ := p
                have hk : Val.str "arguments" = k := by
                  simpa [mapKeys] using hmem
                subst hk
                have hg : is_generic_test (Val.str "arguments") = .ok false := by rfl
                rw [process_step_single (Val.str "arguments") cfg false hg]
                simp
      · have hneeds : needs_migration (.map kvs) = false := by
          simp [needs_migration, hmem]
        cases hf : lookupVal kvs (Val.str "test_name") with
        | none => exact process_step_nofound kvs hlen hf
        | some tn =>
            cases hg : is_generic_test tn with
            | error e =>
                exfalso
                have herr : process_test_list (Val.map kvs :: rest) = .error e := by
                  simp only [process_test_list,
                    process_step_found_err kvs tn e hlen hf hg]
                rw [herr] at h
                exact Except.noConfusion h
            | ok g =>
                rw [process_step_found kvs tn g hlen hf hg]
                by_cases h1 : g = true
                · rw [if_pos h1, if_neg (by simp [hneeds])]
                · rw [if_neg h1]
    simp only [process_test_list, hstep] at h
    cases hr : process_test_list rest with
    | error e => rw [hr] at h; exact Except.noConfusion h
    | ok q =>
        obtain ⟨out', names'⟩ := q
        rw [hr] at h
        simp only [Except.ok.injEq, Prod.mk.injEq, List.nil_append] at h
        refine ⟨out', h.1.symm, ?_⟩
        rw [h.2]

/-- C4 witness: a document whose single model carries one migratable
check is mapped by the first run to its migrated form, and the second run
is the identity on that form with no recorded names; and an entry already
carrying `arguments` passes through. -/
theorem migration_idempotent_witness :
    valOK (Val.map [(Val.str "models", Val.list [Val.map [(Val.str "tests",
        Val.list [Val.map [(Val.str "accepted_values",
          Val.map [(Val.str "values", Val.list [Val.str "a"])])]])]])]) = true ∧
    process_yaml_content
        (Val.map [(Val.str "models", Val.list [Val.map [(Val.str "tests",
          Val.list [Val.map [(Val.str "accepted_values",
            Val.map [(Val.str "values", Val.list [Val.str "a"])])]])]])]) =
      .ok (Val.map [(Val.str "models", Val.list [Val.map [(Val.str "tests",
          Val.list [Val.map [(Val.str "accepted_values",
            Val.map [(Val.str "arguments",
              Val.map [(Val.str "values", Val.list [Val.str "a"])])])]])]])],
        [Val.str "accepted_values"]) ∧
    process_yaml_content
        (Val.map [(Val.str "models", Val.list [Val.map [(Val.str "tests",
          Val.list [Val.map [(Val.str "accepted_values",
            Val.map [(Val.str "arguments",
              Val.map [(Val.str "values", Val.list [Val.str "a"])])])]])]])]) =
      .ok (Val.map [(Val.str "models", Val.list [Val.map [(Val.str "tests",
          Val.list [Val.map [(Val.str "accepted_values",
            Val.map [(Val.str "arguments",
              Val.map [(Val.str "values", Val.list [Val.str "a"])])])]])]])],
        []) ∧
    (∃ out', ([Val.map [(Val.str "arguments", Val.map [])]] : List Val) =
        Val.map [(Val.str "arguments", Val.map [])] :: out' ∧
      process_test_list [] = .ok (out', [])) :=
  ⟨by decide, by rfl,
   migration_idempotent.1
     (Val.map [(Val.str "models", Val.list [Val.map [(Val.str "tests",
        Val.list [Val.map [(Val.str "accepted_values",
          Val.map [(Val.str "values", Val.list [Val.str "a"])])]])]])])
     (Val.map [(Val.str "models", Val.list [Val.map [(Val.str "tests",
        Val.list [Val.map [(Val.str "accepted_values",
          Val.map [(Val.str "arguments",
            Val.map [(Val.str "values", Val.list [Val.str "a"])])])]])]])])
     [Val.str "accepted_values"] (by decide) (by rfl),
   migration_idempotent.2 [(Val.str "arguments", Val.map [])] [] _ _
     (by decide) (by rfl)⟩

end DbtMigrate
